import Mathlib

/-!
# Verification of the incremental ordering engine (topic-sort / TSP)

Shallow embedding of the graph-construction engine of `src/tsp/tsp.py`
(`OrderSolution`, `TSPSolution`) and `src/topic_sort.py` (`TopicSortSolution`),
together with the cost-model constructions the claims mention.

Nodes are indices `Fin n` (the Python code stores dense `n × n` matrices, so
indices outside `0..n-1` are unrepresentable there as well).  Boolean matrices
become functions `Fin n → Fin n → Bool`; the integer label array
`connected_component` becomes `Fin n → Int` with `-1` for "unassigned".
Python `assert` failures inside `add_edge` are modelled as an `Except` error
carrying the state at the moment the assertion fired (the Python object would
be left exactly in that partially mutated state).
-/

namespace TopicSort

/-- Error taxonomy of §7 of the specification.  The Python source signals all
of these through `assert`; the first two correspond to the two guard asserts
at the top of `OrderSolution.add_edge` (lines 136-137), the last to every
later consistency assert. -/
inductive AddEdgeError where
  | infeasibleEdge
  | duplicateEdge
  | invariantViolation
  deriving DecidableEq, Repr

/-- Mutable state of `OrderSolution.__init__` (tsp.py lines 97-120):
`edges_added`, `node_degrees`, `connected_component`, `feasible_edges`,
`complete`.  (`valid_edges` is a frozen copy of the initial feasibility
matrix, i.e. the strict upper triangle; it is modelled by `validEdges`.) -/
structure OrderState (n : Nat) where
  edges_added : Fin n → Fin n → Bool
  node_degrees : Fin n → Nat
  connected_component : Fin n → Int
  feasible_edges : Fin n → Fin n → Bool
  complete : Bool

instance {n : Nat} : DecidableEq (OrderState n) := fun s t =>
  decidable_of_iff
    (s.edges_added = t.edges_added ∧ s.node_degrees = t.node_degrees ∧
      s.connected_component = t.connected_component ∧
      s.feasible_edges = t.feasible_edges ∧ s.complete = t.complete)
    (by cases s; cases t; simp)

variable {n : Nat}

/-- The initial (and never mutated) `valid_edges` matrix: the strict upper
triangle, `self.feasible_edges[i, i+1:] = True` at `__init__`. -/
def validEdges (n : Nat) : Fin n → Fin n → Bool := fun i j => decide ((i : Nat) < j)

namespace OrderSolution

/-- `OrderSolution.__init__` (tsp.py lines 98-120). -/
def init (n : Nat) : OrderState n :=
  { edges_added := fun _ _ => false
    node_degrees := fun _ => 0
    connected_component := fun _ => -1
    feasible_edges := validEdges n
    complete := false }

end OrderSolution

namespace OrderState

/-- `self.feasible_edges.any()` (numpy `.any()` over the whole matrix). -/
def anyFeasible (s : OrderState n) : Bool :=
  (List.finRange n).any fun i => (List.finRange n).any fun j => s.feasible_edges i j

/-- The check of `OrderSolution.ensure_validity` (tsp.py lines 122-124):
`np.sum(edges_added * valid_edges) == np.sum(edges_added)`, i.e. every
committed edge lies in the original strict-upper-triangular universe. -/
def ensureValidityB (s : OrderState n) : Bool :=
  ((List.finRange n).map fun i =>
      ((List.finRange n).map fun j =>
        if s.edges_added i j = true ∧ validEdges n i j = true then 1 else 0).sum).sum
    ==
  ((List.finRange n).map fun i =>
      ((List.finRange n).map fun j =>
        if s.edges_added i j = true then 1 else 0).sum).sum

/-- `np.sum(self.edges_added, axis=(0, 1))`. -/
def edgeSum (s : OrderState n) : Nat :=
  ((List.finRange n).map fun i =>
    ((List.finRange n).map fun j => if s.edges_added i j = true then 1 else 0).sum).sum

end OrderState

/-- `node_a, node_b = sorted([node_a, node_b])` (tsp.py line 134). -/
def sortPair (a b : Fin n) : Fin n × Fin n := if a ≤ b then (a, b) else (b, a)

/-- Result of an `add_edge` call: either the new state, or the assert that
fired together with the state the object was left in. -/
abbrev AddResult (n : Nat) := Except (AddEdgeError × OrderState n) (OrderState n)

instance {ε α : Type} [DecidableEq ε] [DecidableEq α] : DecidableEq (Except ε α) :=
  fun x y =>
    match x, y with
    | .ok a, .ok b => decidable_of_iff (a = b) (by simp)
    | .error a, .error b => decidable_of_iff (a = b) (by simp)
    | .ok _, .error _ => isFalse (by simp)
    | .error _, .ok _ => isFalse (by simp)

namespace OrderState

/-- `self.feasible_edges[node, :] = False; self.feasible_edges[:, node] = False`
(tsp.py lines 146-147). -/
def clampNode (s : OrderState n) (node : Fin n) : OrderState n :=
  { s with feasible_edges := fun i j =>
      if i = node ∨ j = node then false else s.feasible_edges i j }

/-- tsp.py lines 138-139: remove the sorted pair from the feasible set and
commit it to `edges_added`. -/
def commitPair (s : OrderState n) (a b : Fin n) : OrderState n :=
  { s with
    feasible_edges := fun i j => if i = a ∧ j = b then false else s.feasible_edges i j
    edges_added := fun i j => if i = a ∧ j = b then true else s.edges_added i j }

/-- One iteration of the `for node in [node_a, node_b]` loop of
`OrderSolution.add_edge` (tsp.py lines 141-147): assert the degree bound,
increment the degree, and clamp the node's feasibility row/column once it
reaches degree 2. -/
def bumpDegree (s : OrderState n) (node : Fin n) : AddResult n :=
  if s.node_degrees node < 2 then
    let s' : OrderState n :=
      { s with node_degrees := Function.update s.node_degrees node (s.node_degrees node + 1) }
    if s'.node_degrees node = 2 then .ok (s'.clampNode node) else .ok s'
  else .error (.invariantViolation, s)

/-- The connectivity-update block of `OrderSolution.add_edge`
(tsp.py lines 157-188), run on the already sorted pair. -/
def updateComponents (s : OrderState n) (a b : Fin n) : AddResult n :=
  if s.connected_component a = -1 ∧ s.connected_component b = -1 then
    .ok { s with connected_component := fun i =>
            if i = a ∨ i = b then ((a : Nat) : Int) else s.connected_component i }
  else if s.connected_component a ≠ -1 ∧ s.connected_component b ≠ -1 then
    if s.connected_component a = s.connected_component b then
      .error (.invariantViolation, s)
    else
      let swallower := s.connected_component a
      let swallowed := s.connected_component b
      let cc' : Fin n → Int := fun i =>
        if s.connected_component i = swallowed then swallower else s.connected_component i
      .ok { s with
            connected_component := cc'
            feasible_edges := fun i j =>
              if cc' i = swallower ∧ cc' j = swallower then false
              else s.feasible_edges i j }
  else
    let addition : Fin n := if s.connected_component a = -1 then a else b
    let swallower : Int := if s.connected_component a = -1
      then s.connected_component b else s.connected_component a
    if swallower = -1 then .error (.invariantViolation, s)
    else
      let cc' : Fin n → Int := Function.update s.connected_component addition swallower
      .ok { s with
            connected_component := cc'
            feasible_edges := fun i j =>
              if (i = addition ∧ cc' j = swallower) ∨ (cc' i = swallower ∧ j = addition)
              then false else s.feasible_edges i j }

end OrderState

namespace OrderSolution

/-- `OrderSolution.add_edge` (tsp.py lines 133-190). -/
def add_edge (s : OrderState n) (na nb : Fin n) : AddResult n :=
  match sortPair na nb with
  | (a, b) =>
  if s.feasible_edges a b = true then
    if s.edges_added a b = true then .error (.duplicateEdge, s)
    else
      match (s.commitPair a b).bumpDegree a with
      | .error e => .error e
      | .ok s2 =>
        match s2.bumpDegree b with
        | .error e => .error e
        | .ok s3 =>
          if s3.anyFeasible = false then .ok { s3 with complete := true }
          else
            match s3.updateComponents a b with
            | .error e => .error e
            | .ok s4 =>
              if s4.ensureValidityB = true then .ok s4
              else .error (.invariantViolation, s4)
  else .error (.infeasibleEdge, s)

/-- `OrderSolution.ensure_completion` (tsp.py lines 126-131). -/
def ensure_completion (hn : 0 < n) (s : OrderState n) : Prop :=
  s.ensureValidityB = true ∧ s.anyFeasible = false ∧
  (∀ i : Fin n, s.connected_component i = s.connected_component ⟨0, hn⟩) ∧
  s.complete = true

end OrderSolution

/-- `np.arange(self.dimension)[self.node_degrees == 1]` (tsp.py line 239):
the degree-1 nodes in ascending index order. -/
def degreeOneNodes (s : OrderState n) : List (Fin n) :=
  (List.finRange n).filter fun i => s.node_degrees i = 1

namespace TSPSolution

/-- `TSPSolution.add_edge` (tsp.py lines 234-244): the base step, then the
loop-closing re-opening of the unique pair of degree-1 endpoints when the
feasible set has just emptied before completion, then `ensure_validity`. -/
def add_edge (s : OrderState n) (na nb : Fin n) : AddResult n :=
  match OrderSolution.add_edge s na nb with
  | .error e => .error e
  | .ok s1 =>
    match (if s1.complete = false ∧ s1.anyFeasible = false then
            match degreeOneNodes s1 with
            | [e1, e2] =>
              let p := sortPair e1 e2
              .ok { s1 with feasible_edges := fun i j =>
                      if i = p.1 ∧ j = p.2 then true else s1.feasible_edges i j }
            | _ => .error (.invariantViolation, s1)
          else .ok s1 : AddResult n) with
    | .error e => .error e
    | .ok s2 => if s2.ensureValidityB = true then .ok s2 else .error (.invariantViolation, s2)

/-- `TSPSolution.ensure_completion` (tsp.py lines 229-232). -/
def ensure_completion (hn : 0 < n) (s : OrderState n) : Prop :=
  OrderSolution.ensure_completion hn s ∧ s.edgeSum = n ∧ ∀ i, s.node_degrees i = 2

/-- `TSPSolution.cost` (tsp.py lines 246-248):
`np.sum(self.edges_added * self.problem.costs, axis=(0, 1))` (a boolean
matrix times the integer cost matrix). -/
def cost (costs : Fin n → Fin n → Int) (s : OrderState n) : Int :=
  ((List.finRange n).map fun i =>
    ((List.finRange n).map fun j => if s.edges_added i j = true then costs i j else 0).sum).sum

end TSPSolution

namespace TopicSortSolution

/-- Modelled from the spec: `order_problem.OrderingSolution.finish` is called
by `TopicSortSolution.add_edge` (topic_sort.py line 81) but the
`order_problem` module is not under `src/`.  Spec §4.2: "Reaching a state
where `feasible_mask` is empty is the trigger to mark `complete`"; so
`finish` records completion. -/
def finish (s : OrderState n) : OrderState n := { s with complete := true }

/-- `TopicSortSolution.add_edge` (topic_sort.py lines 77-83). -/
def add_edge (s : OrderState n) (na nb : Fin n) : AddResult n :=
  match OrderSolution.add_edge s na nb with
  | .error e => .error e
  | .ok s1 =>
    if s1.anyFeasible = false then .ok (finish s1)
    else if s1.ensureValidityB = true then .ok s1
    else .error (.invariantViolation, s1)

/-- `TopicSortSolution.ensure_completion` (topic_sort.py lines 71-75). -/
def ensure_completion (hn : 0 < n) (s : OrderState n) : Prop :=
  OrderSolution.ensure_completion hn s ∧
  s.edgeSum = n - 1 ∧
  ((List.finRange n).filter fun i => s.node_degrees i = 2).length = n - 2 ∧
  ((List.finRange n).filter fun i => s.node_degrees i = 1).length = 2

end TopicSortSolution

/-- The two engine variants of the specification (§4.2 path / §4.3 cycle). -/
inductive Variant where
  | path
  | cycle
  deriving DecidableEq, Repr

/-- The variant's `add_edge` entry point. -/
def variantAdd : Variant → OrderState n → Fin n → Fin n → AddResult n
  | .path => TopicSortSolution.add_edge
  | .cycle => TSPSolution.add_edge

/-- States reachable on one engine instance by successful `add_edge` calls of
the given variant, starting from a fresh `OrderSolution.__init__` state. -/
inductive Reach (v : Variant) : {n : Nat} → OrderState n → Prop
  | init (n : Nat) : Reach v (OrderSolution.init n)
  | step {n : Nat} {s s' : OrderState n} (a b : Fin n) :
      Reach v s → variantAdd v s a b = .ok s' → Reach v s'

end TopicSort

namespace TopicSort

variable {n : Nat}

/-! ## Derived notions used to state the claims -/

/-- Undirected adjacency through the committed edges. -/
def adjacent (s : OrderState n) (i j : Fin n) : Prop :=
  s.edges_added i j = true ∨ s.edges_added j i = true

instance (s : OrderState n) (i j : Fin n) : Decidable (adjacent s i j) := by
  unfold adjacent; infer_instance

/-- Graph-theoretic connectivity via committed edges ("same connected
component" in the sense of the specification's glossary). -/
def Connected (s : OrderState n) : Fin n → Fin n → Prop :=
  Relation.ReflTransGen (adjacent s)

/-- Number of committed edges touching node `i`. -/
def degCount (s : OrderState n) (i : Fin n) : Nat :=
  (Finset.univ.filter fun j => adjacent s i j).card

/-- Number of committed edges. -/
def edgeCard (s : OrderState n) : Nat :=
  (Finset.univ.filter fun p : Fin n × Fin n => s.edges_added p.1 p.2 = true).card

/-- The two nodes carry the same (assigned) component label. -/
def sameComp (s : OrderState n) (i j : Fin n) : Prop :=
  s.connected_component i = s.connected_component j ∧ s.connected_component i ≠ -1

instance (s : OrderState n) (i j : Fin n) : Decidable (sameComp s i j) := by
  unfold sameComp; infer_instance

/-- Structural completion criterion of the path variant (spec §4.2). -/
def pathCriterion (s : OrderState n) : Prop :=
  edgeCard s = n - 1 ∧
  ((Finset.univ.filter fun i => s.node_degrees i = 1).card = 2) ∧
  ((Finset.univ.filter fun i => s.node_degrees i = 2).card = n - 2) ∧
  ∀ i j, Connected s i j

/-- Structural completion criterion of the cycle variant (spec §4.3). -/
def cycleCriterion (s : OrderState n) : Prop :=
  edgeCard s = n ∧ (∀ i, s.node_degrees i = 2) ∧ ∀ i j, Connected s i j

/-- The variant's structural completion criterion. -/
def structCriterion : Variant → OrderState n → Prop
  | .path => pathCriterion
  | .cycle => cycleCriterion

/-- The state of either n = 2 engine after its single possible call
`add_edge(0, 1)`. -/
def done2 : OrderState 2 :=
  { edges_added := fun i j => decide ((i : Nat) < j)
    node_degrees := fun _ => 1
    connected_component := fun _ => -1
    feasible_edges := fun _ _ => false
    complete := true }

/-- A completed 3-node tour (all three pairs committed). -/
def cycle3 : OrderState 3 :=
  { edges_added := fun i j => decide ((i : Nat) < j)
    node_degrees := fun _ => 2
    connected_component := fun _ => 0
    feasible_edges := fun _ _ => false
    complete := true }

/-! ## Basic characterizations -/

theorem anyFeasible_eq_true_iff (s : OrderState n) :
    s.anyFeasible = true ↔ ∃ i j, s.feasible_edges i j = true := by
  unfold OrderState.anyFeasible
  simp [List.any_eq_true, List.mem_finRange]

theorem anyFeasible_eq_false_iff (s : OrderState n) :
    s.anyFeasible = false ↔ ∀ i j, s.feasible_edges i j = false := by
  rw [← Bool.not_eq_true, anyFeasible_eq_true_iff]
  push_neg
  simp

theorem ensureValidityB_eq_true_iff (s : OrderState n) :
    s.ensureValidityB = true ↔ ∀ i j, s.edges_added i j = true → (i : Nat) < j := by
  unfold OrderState.ensureValidityB
  rw [beq_iff_eq]
  simp only [← Fin.sum_univ_def]
  rw [Finset.sum_eq_sum_iff_of_le]
  · constructor
    · intro h i j he
      have := h i (Finset.mem_univ i)
      rw [Finset.sum_eq_sum_iff_of_le] at this
      · have hj := this j (Finset.mem_univ j)
        simp only [he, true_and] at hj
        by_contra hlt
        have hv : validEdges n i j = false := by
          simp [validEdges, hlt]
        rw [hv] at hj
        simp at hj
      · intro j _
        split <;> split <;> simp_all
    · intro h i _
      apply Finset.sum_congr rfl
      intro j _
      by_cases he : s.edges_added i j = true
      · have := h i j he
        simp [he, validEdges, this]
      · simp [he]
  · intro i _
    apply Finset.sum_le_sum
    intro j _
    split <;> split <;> simp_all

theorem edgeSum_eq_edgeCard (s : OrderState n) : s.edgeSum = edgeCard s := by
  unfold OrderState.edgeSum edgeCard
  rw [Finset.card_filter]
  rw [← Finset.univ_product_univ, Finset.sum_product]
  rw [← Fin.sum_univ_def (fun i =>
        ((List.finRange n).map fun j => if s.edges_added i j = true then 1 else 0).sum)]
  apply Finset.sum_congr rfl
  intro i _
  rw [← Fin.sum_univ_def]

theorem sortPair_le (a b : Fin n) : (sortPair a b).1 ≤ (sortPair a b).2 := by
  unfold sortPair
  split
  · assumption
  · exact le_of_not_le (by assumption)

theorem sortPair_lt (a b : Fin n) : sortPair a b = (a, b) ∨ sortPair a b = (b, a) := by
  unfold sortPair
  split <;> simp

end TopicSort

namespace TopicSort

variable {n : Nat}

theorem OrderState.ext' {s t : OrderState n}
    (h1 : s.edges_added = t.edges_added) (h2 : s.node_degrees = t.node_degrees)
    (h3 : s.connected_component = t.connected_component)
    (h4 : s.feasible_edges = t.feasible_edges) (h5 : s.complete = t.complete) :
    s = t := by
  cases s; cases t; simp_all

/-! ## Connectivity lemmas -/

theorem adjacent_symm {s : OrderState n} {i j : Fin n} (h : adjacent s i j) :
    adjacent s j i := h.symm

theorem connected_symm {s : OrderState n} {i j : Fin n} (h : Connected s i j) :
    Connected s j i :=
  Relation.ReflTransGen.symmetric (fun _ _ hx => adjacent_symm hx) h

theorem connected_mono {s t : OrderState n}
    (h : ∀ i j, s.edges_added i j = true → t.edges_added i j = true)
    {i j : Fin n} (hc : Connected s i j) : Connected t i j :=
  Relation.ReflTransGen.mono (fun _ _ hxy => hxy.imp (h _ _) (h _ _)) hc

theorem connected_no_edges {s : OrderState n}
    (h : ∀ i j, s.edges_added i j = false) {i j : Fin n} (hc : Connected s i j) :
    i = j := by
  induction hc with
  | refl => rfl
  | tail _ hadj _ =>
    rcases hadj with h1 | h1 <;> simp [h] at h1

theorem adjacent_add_iff {s t : OrderState n} {a b : Fin n}
    (ht : t.edges_added = fun i j => if i = a ∧ j = b then true else s.edges_added i j)
    {x y : Fin n} :
    adjacent t x y ↔ adjacent s x y ∨ (x = a ∧ y = b) ∨ (x = b ∧ y = a) := by
  unfold adjacent
  rw [ht]
  by_cases hxa : x = a <;> by_cases hyb : y = b <;> by_cases hxb : x = b <;>
    by_cases hya : y = a <;> simp_all

theorem connected_add_iff {s t : OrderState n} {a b : Fin n}
    (ht : t.edges_added = fun i j => if i = a ∧ j = b then true else s.edges_added i j)
    {x y : Fin n} :
    Connected t x y ↔
      Connected s x y ∨ (Connected s x a ∧ Connected s b y) ∨
        (Connected s x b ∧ Connected s a y) := by
  constructor
  · intro h
    induction h with
    | refl => exact Or.inl Relation.ReflTransGen.refl
    | tail _ hadj ih =>
      rename_i c d _
      rcases (adjacent_add_iff ht).1 hadj with hs | ⟨hca, hdb⟩ | ⟨hcb, hda⟩
      · rcases ih with h1 | ⟨h1, h2⟩ | ⟨h1, h2⟩
        · exact Or.inl (h1.tail hs)
        · exact Or.inr (Or.inl ⟨h1, h2.tail hs⟩)
        · exact Or.inr (Or.inr ⟨h1, h2.tail hs⟩)
      · subst hca hdb
        rcases ih with h1 | ⟨h1, h2⟩ | ⟨h1, h2⟩
        · exact Or.inr (Or.inl ⟨h1, Relation.ReflTransGen.refl⟩)
        · exact Or.inr (Or.inl ⟨h1, Relation.ReflTransGen.refl⟩)
        · exact Or.inl h1
      · subst hcb hda
        rcases ih with h1 | ⟨h1, h2⟩ | ⟨h1, h2⟩
        · exact Or.inr (Or.inr ⟨h1, Relation.ReflTransGen.refl⟩)
        · exact Or.inl h1
        · exact Or.inr (Or.inr ⟨h1, Relation.ReflTransGen.refl⟩)
  · have hmono : ∀ {p q : Fin n}, Connected s p q → Connected t p q := by
      intro p q hc
      refine connected_mono (fun i j hij => ?_) hc
      rw [ht]
      by_cases h1 : i = a ∧ j = b <;> simp [h1, hij]
    have hab : Connected t a b := by
      refine Relation.ReflTransGen.single ?_
      left
      rw [ht]
      simp
    rintro (h | ⟨h1, h2⟩ | ⟨h1, h2⟩)
    · exact hmono h
    · exact ((hmono h1).trans hab).trans (hmono h2)
    · exact ((hmono h1).trans (connected_symm hab)).trans (hmono h2)

theorem degCount_add {s t : OrderState n} {a b : Fin n}
    (ht : t.edges_added = fun i j => if i = a ∧ j = b then true else s.edges_added i j)
    (hd : s.edges_added a b = false) (hba : s.edges_added b a = false) (hne : a ≠ b)
    (x : Fin n) :
    degCount t x = if x = a ∨ x = b then degCount s x + 1 else degCount s x := by
  unfold degCount
  by_cases hxa : x = a
  · subst hxa
    have : (Finset.univ.filter fun j => adjacent t x j) =
        insert b (Finset.univ.filter fun j => adjacent s x j) := by
      ext j
      simp only [Finset.mem_filter, Finset.mem_insert, Finset.mem_univ, true_and]
      rw [adjacent_add_iff ht]
      constructor
      · rintro (h | ⟨-, h⟩ | ⟨h, -⟩)
        · exact Or.inr h
        · exact Or.inl h
        · exact absurd h hne
      · rintro (h | h)
        · exact Or.inr (Or.inl ⟨rfl, h⟩)
        · exact Or.inl h
    rw [this, Finset.card_insert_of_not_mem]
    · simp [hne]
    · simp only [Finset.mem_filter, Finset.mem_univ, true_and]
      simp [adjacent, hd, hba]
  · by_cases hxb : x = b
    · subst hxb
      have : (Finset.univ.filter fun j => adjacent t x j) =
          insert a (Finset.univ.filter fun j => adjacent s x j) := by
        ext j
        simp only [Finset.mem_filter, Finset.mem_insert, Finset.mem_univ, true_and]
        rw [adjacent_add_iff ht]
        constructor
        · rintro (h | ⟨h, -⟩ | ⟨-, h⟩)
          · exact Or.inr h
          · exact absurd h (Ne.symm hne)
          · exact Or.inl h
        · rintro (h | h)
          · exact Or.inr (Or.inr ⟨rfl, h⟩)
          · exact Or.inl h
      rw [this, Finset.card_insert_of_not_mem]
      · simp [hxa]
      · simp only [Finset.mem_filter, Finset.mem_univ, true_and]
        simp [adjacent, hd, hba]
    · have : (Finset.univ.filter fun j => adjacent t x j) =
          (Finset.univ.filter fun j => adjacent s x j) := by
        ext j
        simp only [Finset.mem_filter, Finset.mem_univ, true_and]
        rw [adjacent_add_iff ht]
        constructor
        · rintro (h | ⟨h, -⟩ | ⟨h, -⟩)
          · exact h
          · exact absurd h hxa
          · exact absurd h hxb
        · exact fun h => Or.inl h
      rw [this]
      simp [hxa, hxb]

theorem edgeCard_add {s t : OrderState n} {a b : Fin n}
    (ht : t.edges_added = fun i j => if i = a ∧ j = b then true else s.edges_added i j)
    (hd : s.edges_added a b = false) :
    edgeCard t = edgeCard s + 1 := by
  unfold edgeCard
  have : (Finset.univ.filter fun p : Fin n × Fin n => t.edges_added p.1 p.2 = true) =
      insert (a, b) (Finset.univ.filter fun p : Fin n × Fin n => s.edges_added p.1 p.2 = true) := by
    ext p
    simp only [Finset.mem_filter, Finset.mem_insert, Finset.mem_univ, true_and]
    rw [ht]
    rcases p with ⟨i, j⟩
    by_cases h1 : i = a ∧ j = b
    · rcases h1 with ⟨rfl, rfl⟩
      simp
    · simp only [h1, if_false]
      constructor
      · exact fun h => Or.inr h
      · rintro (h | h)
        · exact absurd (by rw [Prod.ext_iff] at h; exact ⟨h.1, h.2⟩) h1
        · exact h
  rw [this, Finset.card_insert_of_not_mem]
  simp [hd]

end TopicSort

namespace TopicSort

variable {n : Nat}

/-- The engine state reached inside `OrderSolution.add_edge` after committing
the sorted pair `(a, b)` and running both degree bumps (tsp.py lines 138-147),
assuming both endpoints had degree `< 2` on entry. -/
def afterBumps (s : OrderState n) (a b : Fin n) : OrderState n :=
  { s with
    edges_added := fun i j => if i = a ∧ j = b then true else s.edges_added i j
    node_degrees := fun x => if x = a ∨ x = b then s.node_degrees x + 1 else s.node_degrees x
    feasible_edges := fun i j =>
      if i = a ∧ j = b then false
      else if (i = a ∨ j = a) ∧ s.node_degrees a + 1 = 2 then false
      else if (i = b ∨ j = b) ∧ s.node_degrees b + 1 = 2 then false
      else s.feasible_edges i j }

theorem bumpDegree_eq_of_lt {s : OrderState n} {node : Fin n}
    (h : s.node_degrees node < 2) :
    s.bumpDegree node = .ok (
      if s.node_degrees node + 1 = 2 then
        { s with
          node_degrees := Function.update s.node_degrees node (s.node_degrees node + 1)
          feasible_edges := fun i j =>
            if i = node ∨ j = node then false else s.feasible_edges i j }
      else
        { s with
          node_degrees := Function.update s.node_degrees node (s.node_degrees node + 1) }) := by
  unfold OrderState.bumpDegree OrderState.clampNode
  rw [if_pos h]
  simp only [Function.update_same]
  split <;> rfl

theorem bumps_run {s : OrderState n} {a b : Fin n}
    (hne : a ≠ b) (h2a : s.node_degrees a < 2) (h2b : s.node_degrees b < 2) :
    (match (s.commitPair a b).bumpDegree a with
      | .error e => (.error e : AddResult n)
      | .ok s2 => s2.bumpDegree b) = .ok (afterBumps s a b) := by
  have hba : b ≠ a := Ne.symm hne
  by_cases ca : s.node_degrees a + 1 = 2 <;> by_cases cb : s.node_degrees b + 1 = 2 <;>
    simp only [OrderState.bumpDegree, OrderState.commitPair, OrderState.clampNode,
      Function.update_same, Function.update_noteq hba, h2a, h2b, ca, cb,
      if_true, if_false, ite_true, ite_false] <;>
    refine congrArg Except.ok (OrderState.ext' rfl ?_ rfl ?_ rfl) <;>
    first
      | (funext x
         by_cases hxa : x = a <;> by_cases hxb : x = b <;>
           simp_all [afterBumps, Function.update]
         done)
      | (funext i j
         simp only [afterBumps]
         split_ifs <;> simp_all)

/-- A successful-looking run of the base `add_edge` factored through
`afterBumps`. -/
theorem add_edge_run {s : OrderState n} {na nb a b : Fin n}
    (hab : sortPair na nb = (a, b))
    (hf : s.feasible_edges a b = true) (hd : s.edges_added a b = false)
    (hne : a ≠ b) (h2a : s.node_degrees a < 2) (h2b : s.node_degrees b < 2) :
    OrderSolution.add_edge s na nb =
      if (afterBumps s a b).anyFeasible = false then
        .ok { afterBumps s a b with complete := true }
      else
        match (afterBumps s a b).updateComponents a b with
        | .error e => .error e
        | .ok s4 =>
          if s4.ensureValidityB = true then .ok s4
          else .error (.invariantViolation, s4) := by
  unfold OrderSolution.add_edge
  simp only [hab]
  have hrun := bumps_run (s := s) (a := a) (b := b) hne h2a h2b
  rw [if_pos hf, if_neg (by simp [hd])]
  cases h1 : (s.commitPair a b).bumpDegree a with
  | error e =>
    rw [h1] at hrun
    simp at hrun
  | ok s2 =>
    rw [h1] at hrun
    simp only [] at hrun
    cases h2 : s2.bumpDegree b with
    | error e =>
      rw [h2] at hrun
      simp at hrun
    | ok s3 =>
      rw [h2] at hrun
      simp only [Except.ok.injEq] at hrun
      subst hrun
      simp only [h2]

end TopicSort

namespace TopicSort

variable {n : Nat}

/-! ## The inductive invariant -/

/-- Bookkeeping facts maintained by every reachable state (spec §3,
invariants 1-3): canonical `i < j` storage, degree counts, degree bound. -/
structure CommonInv (s : OrderState n) : Prop where
  edges_lt : ∀ i j, s.edges_added i j = true → (i : Nat) < j
  feas_lt : ∀ i j, s.feasible_edges i j = true → (i : Nat) < j
  deg_eq : ∀ i, s.node_degrees i = degCount s i
  deg_le : ∀ i, s.node_degrees i ≤ 2
  deg_sum : ∑ i, s.node_degrees i = 2 * edgeCard s

/-- Invariants of a mid-construction state (before any completion event):
the feasible set is exactly the pairs allowed by the degree bound and the
no-premature-cycle rule, and the component labels exactly mirror
connectivity. -/
structure BuildingCore (s : OrderState n) : Prop where
  not_complete : s.complete = false
  feas_char : ∀ i j, s.feasible_edges i j = true ↔
    ((i : Nat) < j ∧ s.node_degrees i < 2 ∧ s.node_degrees j < 2 ∧ ¬ sameComp s i j)
  cc_deg : ∀ i, (s.connected_component i = -1 ↔ s.node_degrees i = 0)
  label_owner : ∀ i, s.connected_component i ≠ -1 →
    ∃ k : Fin n, s.connected_component k = s.connected_component i ∧
      ((k : Nat) : Int) = s.connected_component i
  label_conn : ∀ i j, Connected s i j ↔ (i = j ∨ sameComp s i j)
  two_ends : ∀ i, s.connected_component i ≠ -1 →
    (Finset.univ.filter fun j =>
      s.connected_component j = s.connected_component i ∧ s.node_degrees j = 1).card = 2

/-- The pre-closing state of the cycle variant: a Hamiltonian path has just
been completed and exactly the loop-closing pair has been re-opened. -/
structure ClosingInv (s : OrderState n) : Prop where
  not_complete : s.complete = false
  three_le : 3 ≤ n
  ends : ∃ u v : Fin n, (u : Nat) < v ∧ s.node_degrees u = 1 ∧ s.node_degrees v = 1 ∧
    s.edges_added u v = false ∧
    (∀ i j, s.feasible_edges i j = true ↔ (i = u ∧ j = v)) ∧
    (∀ i, i ≠ u → i ≠ v → s.node_degrees i = 2)
  edge_count : edgeCard s = n - 1
  all_conn : ∀ i j, Connected s i j
  cc_same : ∀ i j, s.connected_component i = s.connected_component j
  cc_assigned : ∀ i, s.connected_component i ≠ -1

/-- A completed path-variant state with `n ≥ 3`. -/
structure DonePathInv (s : OrderState n) : Prop where
  complete : s.complete = true
  no_feas : ∀ i j, s.feasible_edges i j = false
  edge_count : edgeCard s = n - 1
  deg_one_card : (Finset.univ.filter fun i => s.node_degrees i = 1).card = 2
  deg_mem : ∀ i, s.node_degrees i = 1 ∨ s.node_degrees i = 2
  all_conn : ∀ i j, Connected s i j
  cc_same : ∀ i j, s.connected_component i = s.connected_component j
  cc_assigned : ∀ i, s.connected_component i ≠ -1

/-- A completed cycle-variant state with `n ≥ 3`. -/
structure DoneCycleInv (s : OrderState n) : Prop where
  complete : s.complete = true
  no_feas : ∀ i j, s.feasible_edges i j = false
  edge_count : edgeCard s = n
  deg_two : ∀ i, s.node_degrees i = 2
  all_conn : ∀ i j, Connected s i j
  cc_same : ∀ i j, s.connected_component i = s.connected_component j
  cc_assigned : ∀ i, s.connected_component i ≠ -1

/-- The terminal state of a 2-node engine (either variant): its single edge
empties the feasible set inside the base step, so `complete` is set through
the early return and the component labels are never assigned. -/
structure DoneTwoInv (s : OrderState n) : Prop where
  two : n = 2
  complete : s.complete = true
  no_feas : ∀ i j, s.feasible_edges i j = false
  edges_iff : ∀ i j, (s.edges_added i j = true ↔ (i : Nat) < j)
  deg_one : ∀ i, s.node_degrees i = 1
  cc_none : ∀ i, s.connected_component i = -1

/-- The full inductive invariant, by phase. -/
def Inv (v : Variant) (s : OrderState n) : Prop :=
  CommonInv s ∧
  ((BuildingCore s ∧ s.anyFeasible = true) ∨
   (v = .cycle ∧ ClosingInv s) ∨
   (v = .path ∧ DonePathInv s) ∨
   (v = .cycle ∧ DoneCycleInv s) ∨
   DoneTwoInv s)

theorem sameComp_symm {s : OrderState n} {i j : Fin n} (h : sameComp s i j) :
    sameComp s j i := ⟨h.1.symm, h.1 ▸ h.2⟩

theorem sameComp_symm_iff {s : OrderState n} {i j : Fin n} :
    sameComp s i j ↔ sameComp s j i :=
  ⟨sameComp_symm, sameComp_symm⟩

/-! ## Properties of `afterBumps` -/

section AfterBumps

variable {s : OrderState n} {a b : Fin n}

theorem afterBumps_cc : (afterBumps s a b).connected_component = s.connected_component := rfl

theorem afterBumps_complete : (afterBumps s a b).complete = s.complete := rfl

theorem afterBumps_edges :
    (afterBumps s a b).edges_added =
      fun i j => if i = a ∧ j = b then true else s.edges_added i j := rfl

theorem afterBumps_deg (x : Fin n) :
    (afterBumps s a b).node_degrees x =
      if x = a ∨ x = b then s.node_degrees x + 1 else s.node_degrees x := rfl

/-- Structural form of the feasibility matrix after commit and clamping. -/
theorem afterBumps_feas_eq (i j : Fin n) :
    (afterBumps s a b).feasible_edges i j =
      if (i = a ∧ j = b) ∨ ((i = a ∨ j = a) ∧ s.node_degrees a + 1 = 2) ∨
         ((i = b ∨ j = b) ∧ s.node_degrees b + 1 = 2) then false
      else s.feasible_edges i j := by
  show (if i = a ∧ j = b then false
      else if (i = a ∨ j = a) ∧ s.node_degrees a + 1 = 2 then false
      else if (i = b ∨ j = b) ∧ s.node_degrees b + 1 = 2 then false
      else s.feasible_edges i j) = _
  by_cases h1 : i = a ∧ j = b
  · rw [if_pos h1, if_pos (Or.inl h1)]
  · rw [if_neg h1]
    by_cases h2 : (i = a ∨ j = a) ∧ s.node_degrees a + 1 = 2
    · rw [if_pos h2, if_pos (Or.inr (Or.inl h2))]
    · rw [if_neg h2]
      by_cases h3 : (i = b ∨ j = b) ∧ s.node_degrees b + 1 = 2
      · rw [if_pos h3, if_pos (Or.inr (Or.inr h3))]
      · rw [if_neg h3, if_neg (by tauto)]

/-- Feasibility after commit and clamping, against a building state: the
characterization survives with the new degrees, the old components, and the
committed pair excluded. -/
theorem afterBumps_feas_char
    (hchar : ∀ i j, s.feasible_edges i j = true ↔
      ((i : Nat) < j ∧ s.node_degrees i < 2 ∧ s.node_degrees j < 2 ∧ ¬ sameComp s i j))
    (i j : Fin n) :
    (afterBumps s a b).feasible_edges i j = true ↔
      ((i : Nat) < j ∧ (afterBumps s a b).node_degrees i < 2 ∧
        (afterBumps s a b).node_degrees j < 2 ∧ ¬ sameComp s i j ∧ ¬(i = a ∧ j = b)) := by
  rw [afterBumps_feas_eq, afterBumps_deg, afterBumps_deg]
  by_cases hrem : (i = a ∧ j = b) ∨ ((i = a ∨ j = a) ∧ s.node_degrees a + 1 = 2) ∨
      ((i = b ∨ j = b) ∧ s.node_degrees b + 1 = 2)
  · rw [if_pos hrem]
    simp only [Bool.false_eq_true, false_iff]
    rintro ⟨hij, hdi, hdj, hsc, hnab⟩
    rcases hrem with h | ⟨hia, h2⟩ | ⟨hib, h2⟩
    · exact hnab h
    · rcases hia with rfl | rfl
      · rw [if_pos (Or.inl rfl)] at hdi; omega
      · rw [if_pos (Or.inl rfl)] at hdj; omega
    · rcases hib with rfl | rfl
      · rw [if_pos (Or.inr rfl)] at hdi; omega
      · rw [if_pos (Or.inr rfl)] at hdj; omega
  · have hnab : ¬(i = a ∧ j = b) := fun h => hrem (Or.inl h)
    have hnA : ¬((i = a ∨ j = a) ∧ s.node_degrees a + 1 = 2) :=
      fun h => hrem (Or.inr (Or.inl h))
    have hnB : ¬((i = b ∨ j = b) ∧ s.node_degrees b + 1 = 2) :=
      fun h => hrem (Or.inr (Or.inr h))
    rw [if_neg hrem, hchar]
    constructor
    · rintro ⟨hij, hdi, hdj, hsc⟩
      refine ⟨hij, ?_, ?_, hsc, hnab⟩
      · by_cases hia : i = a
        · subst hia
          rw [if_pos (Or.inl rfl)]
          have h2 : ¬ s.node_degrees i + 1 = 2 := fun h => hnA ⟨Or.inl rfl, h⟩
          omega
        · by_cases hib : i = b
          · subst hib
            rw [if_pos (Or.inr rfl)]
            have h2 : ¬ s.node_degrees i + 1 = 2 := fun h => hnB ⟨Or.inl rfl, h⟩
            omega
          · rw [if_neg (by tauto)]
            exact hdi
      · by_cases hja : j = a
        · subst hja
          rw [if_pos (Or.inl rfl)]
          have h2 : ¬ s.node_degrees j + 1 = 2 := fun h => hnA ⟨Or.inr rfl, h⟩
          omega
        · by_cases hjb : j = b
          · subst hjb
            rw [if_pos (Or.inr rfl)]
            have h2 : ¬ s.node_degrees j + 1 = 2 := fun h => hnB ⟨Or.inr rfl, h⟩
            omega
          · rw [if_neg (by tauto)]
            exact hdj
    · rintro ⟨hij, hdi, hdj, hsc, -⟩
      refine ⟨hij, ?_, ?_, hsc⟩
      · by_cases hia : i = a
        · subst hia
          rw [if_pos (Or.inl rfl)] at hdi
          omega
        · by_cases hib : i = b
          · subst hib
            rw [if_pos (Or.inr rfl)] at hdi
            omega
          · rwa [if_neg (by tauto)] at hdi
      · by_cases hja : j = a
        · subst hja
          rw [if_pos (Or.inl rfl)] at hdj
          omega
        · by_cases hjb : j = b
          · subst hjb
            rw [if_pos (Or.inr rfl)] at hdj
            omega
          · rwa [if_neg (by tauto)] at hdj

end AfterBumps

end TopicSort

namespace TopicSort

variable {n : Nat}

theorem degCount_eq_zero_iff {s : OrderState n} {i : Fin n} :
    degCount s i = 0 ↔ ∀ j, s.edges_added i j = false ∧ s.edges_added j i = false := by
  unfold degCount
  rw [Finset.card_eq_zero, Finset.filter_eq_empty_iff]
  constructor
  · intro h j
    have := h (Finset.mem_univ j)
    unfold adjacent at this
    push_neg at this
    exact ⟨Bool.not_eq_true _ ▸ this.1, Bool.not_eq_true _ ▸ this.2⟩
  · intro h j _
    unfold adjacent
    push_neg
    exact ⟨by simp [(h j).1], by simp [(h j).2]⟩

theorem sum_bump (f : Fin n → Nat) {a b : Fin n} (hne : a ≠ b) :
    (∑ x, if x = a ∨ x = b then f x + 1 else f x) = (∑ x, f x) + 2 := by
  have h1 : ∀ x ∈ Finset.univ,
      (if x = a ∨ x = b then f x + 1 else f x) = f x + (if x ∈ ({a, b} : Finset (Fin n)) then 1 else 0) := by
    intro x _
    by_cases h : x = a ∨ x = b <;> simp [Finset.mem_insert, Finset.mem_singleton, h]
  rw [Finset.sum_congr rfl h1, Finset.sum_add_distrib]
  have h2 : (∑ x, if x ∈ ({a, b} : Finset (Fin n)) then (1 : Nat) else 0) = 2 := by
    rw [Finset.sum_ite_mem, Finset.univ_inter, Finset.sum_const,
      Finset.card_insert_of_not_mem (by simp [hne]), Finset.card_singleton]
    simp
  rw [h2]

theorem fin_ne_of_val_lt {a b : Fin n} (h : (a : Nat) < b) : a ≠ b :=
  fun hab => absurd (hab ▸ h) (lt_irrefl _)

theorem common_afterBumps {s : OrderState n} {a b : Fin n}
    (hc : CommonInv s) (hab : (a : Nat) < b)
    (h2a : s.node_degrees a < 2) (h2b : s.node_degrees b < 2)
    (hda : s.edges_added a b = false) (hdb : s.edges_added b a = false) :
    CommonInv (afterBumps s a b) ∧ edgeCard (afterBumps s a b) = edgeCard s + 1 := by
  have hne : a ≠ b := fin_ne_of_val_lt hab
  have hcard : edgeCard (afterBumps s a b) = edgeCard s + 1 :=
    edgeCard_add afterBumps_edges hda
  refine ⟨⟨?_, ?_, ?_, ?_, ?_⟩, hcard⟩
  · intro i j hij
    simp only [afterBumps_edges] at hij
    by_cases h : i = a ∧ j = b
    · exact h.1 ▸ h.2 ▸ hab
    · rw [if_neg h] at hij
      exact hc.edges_lt i j hij
  · intro i j hij
    rw [afterBumps_feas_eq] at hij
    by_cases h : (i = a ∧ j = b) ∨ ((i = a ∨ j = a) ∧ s.node_degrees a + 1 = 2) ∨
        ((i = b ∨ j = b) ∧ s.node_degrees b + 1 = 2)
    · rw [if_pos h] at hij
      cases hij
    · rw [if_neg h] at hij
      exact hc.feas_lt i j hij
  · intro x
    rw [degCount_add afterBumps_edges hda hdb hne x, afterBumps_deg]
    by_cases h : x = a ∨ x = b
    · rw [if_pos h, if_pos h, hc.deg_eq x]
    · rw [if_neg h, if_neg h, hc.deg_eq x]
  · intro x
    rw [afterBumps_deg]
    by_cases hx : x = a ∨ x = b
    · rw [if_pos hx]
      rcases hx with rfl | rfl <;> omega
    · rw [if_neg hx]
      exact hc.deg_le x
  · have : (∑ x, (afterBumps s a b).node_degrees x) =
        (∑ x, s.node_degrees x) + 2 := by
      simp only [afterBumps_deg]
      exact sum_bump s.node_degrees hne
    rw [this, hcard, hc.deg_sum]
    ring

/-! ## The three `updateComponents` branches -/

section UpdateBranches

variable {s : OrderState n} {a b : Fin n}

theorem updateComponents_fresh
    (ha : s.connected_component a = -1) (hb : s.connected_component b = -1) :
    s.updateComponents a b = .ok { s with connected_component := fun i =>
      if i = a ∨ i = b then ((a : Nat) : Int) else s.connected_component i } := by
  unfold OrderState.updateComponents
  rw [if_pos ⟨ha, hb⟩]

theorem updateComponents_merge
    (ha : s.connected_component a ≠ -1) (hb : s.connected_component b ≠ -1)
    (hne : s.connected_component a ≠ s.connected_component b) :
    s.updateComponents a b = .ok { s with
      connected_component := fun i =>
        if s.connected_component i = s.connected_component b then s.connected_component a
        else s.connected_component i
      feasible_edges := fun i j =>
        if (if s.connected_component i = s.connected_component b then s.connected_component a
            else s.connected_component i) = s.connected_component a ∧
           (if s.connected_component j = s.connected_component b then s.connected_component a
            else s.connected_component j) = s.connected_component a
        then false else s.feasible_edges i j } := by
  unfold OrderState.updateComponents
  rw [if_neg (fun hc => ha hc.1), if_pos ⟨ha, hb⟩, if_neg hne]

theorem updateComponents_absorb_left
    (ha : s.connected_component a = -1) (hb : s.connected_component b ≠ -1) :
    s.updateComponents a b = .ok { s with
      connected_component := Function.update s.connected_component a (s.connected_component b)
      feasible_edges := fun i j =>
        if (i = a ∧ Function.update s.connected_component a (s.connected_component b) j =
              s.connected_component b) ∨
           (Function.update s.connected_component a (s.connected_component b) i =
              s.connected_component b ∧ j = a)
        then false else s.feasible_edges i j } := by
  unfold OrderState.updateComponents
  rw [if_neg (fun hc => hb hc.2), if_neg (fun hc => hc.1 ha)]
  have h1 : (if s.connected_component a = -1 then a else b) = a := by rw [if_pos ha]
  have h2 : (if s.connected_component a = -1 then s.connected_component b
      else s.connected_component a) = s.connected_component b := by rw [if_pos ha]
  rw [h1, h2, if_neg hb]

theorem updateComponents_absorb_right
    (ha : s.connected_component a ≠ -1) (hb : s.connected_component b = -1) :
    s.updateComponents a b = .ok { s with
      connected_component := Function.update s.connected_component b (s.connected_component a)
      feasible_edges := fun i j =>
        if (i = b ∧ Function.update s.connected_component b (s.connected_component a) j =
              s.connected_component a) ∨
           (Function.update s.connected_component b (s.connected_component a) i =
              s.connected_component a ∧ j = b)
        then false else s.feasible_edges i j } := by
  unfold OrderState.updateComponents
  rw [if_neg (fun hc => ha hc.1), if_neg (fun hc => hc.2 hb)]
  have h1 : (if s.connected_component a = -1 then a else b) = b := by rw [if_neg ha]
  have h2 : (if s.connected_component a = -1 then s.connected_component b
      else s.connected_component a) = s.connected_component a := by rw [if_neg ha]
  rw [h1, h2, if_neg ha]

end UpdateBranches

end TopicSort

namespace TopicSort

variable {n : Nat}

theorem natCast_ne_negOne (a : Fin n) : ((a : Nat) : Int) ≠ -1 := by
  have := Int.natCast_nonneg (a : Nat)
  omega

theorem fin_eq_of_cast_eq {a k : Fin n} (h : ((k : Nat) : Int) = ((a : Nat) : Int)) :
    k = a :=
  Fin.ext (Int.natCast_inj.1 h)

/-- Facts available about the sorted pair of a feasible edge in a building
state. -/
theorem building_feas_facts {s : OrderState n} (hc : CommonInv s) (hb : BuildingCore s)
    {a b : Fin n} (hf : s.feasible_edges a b = true) :
    (a : Nat) < b ∧ s.node_degrees a < 2 ∧ s.node_degrees b < 2 ∧ ¬ sameComp s a b ∧
    s.edges_added a b = false ∧ s.edges_added b a = false := by
  obtain ⟨hab, h2a, h2b, hnsc⟩ := (hb.feas_char a b).1 hf
  have hne : a ≠ b := fin_ne_of_val_lt hab
  refine ⟨hab, h2a, h2b, hnsc, ?_, ?_⟩
  · by_contra h
    rw [Bool.not_eq_false] at h
    have hconn : Connected s a b := Relation.ReflTransGen.single (Or.inl h)
    rcases (hb.label_conn a b).1 hconn with h1 | h1
    · exact hne h1
    · exact hnsc h1
  · by_contra h
    rw [Bool.not_eq_false] at h
    exact absurd (hc.edges_lt b a h) (by omega)

section BranchFresh

variable {s : OrderState n} {a b : Fin n}

/-- New labels in the both-unassigned branch. -/
theorem fresh_cc_eq_label (hb : BuildingCore s)
    (hca : s.connected_component a = -1) (i : Fin n) :
    ((if i = a ∨ i = b then ((a : Nat) : Int) else s.connected_component i)
      = ((a : Nat) : Int)) ↔ (i = a ∨ i = b) := by
  by_cases h : i = a ∨ i = b
  · simp [h]
  · rw [if_neg h]
    constructor
    · intro hl
      exfalso
      obtain ⟨k, hk1, hk2⟩ := hb.label_owner i (by rw [hl]; exact natCast_ne_negOne a)
      have hk : k = a := fin_eq_of_cast_eq (hk2.trans hl)
      rw [hk] at hk1
      rw [hk1, hl] at hca
      exact natCast_ne_negOne a hca
    · intro h1
      exact absurd h1 h

theorem sameComp_fresh (hb : BuildingCore s)
    (hca : s.connected_component a = -1) (hcb : s.connected_component b = -1)
    {r : OrderState n}
    (hr : r.connected_component = fun i =>
      if i = a ∨ i = b then ((a : Nat) : Int) else s.connected_component i)
    (i j : Fin n) :
    sameComp r i j ↔
      (sameComp s i j ∨ ((i = a ∨ i = b) ∧ (j = a ∨ j = b))) := by
  unfold sameComp
  simp only [hr]
  by_cases hi : i = a ∨ i = b <;> by_cases hj : j = a ∨ j = b
  · rw [if_pos hi, if_pos hj]
    constructor
    · intro _
      exact Or.inr ⟨hi, hj⟩
    · intro _
      exact ⟨rfl, natCast_ne_negOne a⟩
  · rw [if_pos hi, if_neg hj]
    constructor
    · rintro ⟨heq, -⟩
      exfalso
      obtain ⟨k, hk1, hk2⟩ := hb.label_owner j (by rw [← heq]; exact natCast_ne_negOne a)
      have hk : k = a := fin_eq_of_cast_eq (hk2.trans heq.symm)
      rw [hk] at hk1
      rw [hk1] at hca
      exact natCast_ne_negOne a (heq.trans hca)
    · rintro (⟨heq, hne⟩ | ⟨-, hj'⟩)
      · exfalso
        rcases hi with rfl | rfl
        · exact hne hca
        · exact hne hcb
      · exact absurd hj' hj
  · rw [if_neg hi, if_pos hj]
    constructor
    · rintro ⟨heq, hne⟩
      exfalso
      obtain ⟨k, hk1, hk2⟩ := hb.label_owner i (by rw [heq]; exact natCast_ne_negOne a)
      have hk : k = a := fin_eq_of_cast_eq (hk2.trans heq)
      rw [hk] at hk1
      rw [hk1] at hca
      exact hne hca
    · rintro (⟨heq, hne⟩ | ⟨hi', -⟩)
      · exfalso
        rcases hj with rfl | rfl
        · exact hne (heq.trans hca)
        · exact hne (heq.trans hcb)
      · exact absurd hi' hi
  · rw [if_neg hi, if_neg hj]
    constructor
    · intro h
      exact Or.inl h
    · rintro (h | ⟨hi', -⟩)
      · exact h
      · exact absurd hi' hi

end BranchFresh

end TopicSort

namespace TopicSort

variable {n : Nat}

theorem branch_fresh_core {s : OrderState n} {a b : Fin n}
    (hc : CommonInv s) (hb : BuildingCore s) (hf : s.feasible_edges a b = true)
    (hca : s.connected_component a = -1) (hcb : s.connected_component b = -1) :
    BuildingCore { afterBumps s a b with connected_component := fun i =>
      if i = a ∨ i = b then ((a : Nat) : Int) else s.connected_component i } := by
  obtain ⟨hab, h2a, h2b, hnsc, hda, hdb⟩ := building_feas_facts hc hb hf
  have hne : a ≠ b := fin_ne_of_val_lt hab
  have hlabel := fresh_cc_eq_label (b := b) hb hca
  have hsc := sameComp_fresh (r := { afterBumps s a b with connected_component := fun i =>
      if i = a ∨ i = b then ((a : Nat) : Int) else s.connected_component i })
    hb hca hcb rfl
  have hdega : s.node_degrees a = 0 := (hb.cc_deg a).1 hca
  have hdegb : s.node_degrees b = 0 := (hb.cc_deg b).1 hcb
  refine ⟨hb.not_complete, ?_, ?_, ?_, ?_, ?_⟩
  · -- feas_char
    intro i j
    show (afterBumps s a b).feasible_edges i j = true ↔
      ((i : Nat) < j ∧ (afterBumps s a b).node_degrees i < 2 ∧
        (afterBumps s a b).node_degrees j < 2 ∧ ¬ _)
    rw [afterBumps_feas_char hb.feas_char i j, hsc i j]
    constructor
    · rintro ⟨hij, hdi, hdj, hsij, hnab⟩
      refine ⟨hij, hdi, hdj, ?_⟩
      rintro (h | ⟨hia, hjb⟩)
      · exact hsij h
      · rcases hia with rfl | rfl <;> rcases hjb with rfl | rfl
        · omega
        · exact hnab ⟨rfl, rfl⟩
        · omega
        · omega
    · rintro ⟨hij, hdi, hdj, hsij⟩
      exact ⟨hij, hdi, hdj, fun h => hsij (Or.inl h),
        fun h => hsij (Or.inr ⟨Or.inl h.1, Or.inr h.2⟩)⟩
  · -- cc_deg
    intro i
    show (if i = a ∨ i = b then ((a : Nat) : Int) else s.connected_component i) = -1 ↔
      (afterBumps s a b).node_degrees i = 0
    rw [afterBumps_deg]
    by_cases h : i = a ∨ i = b
    · rw [if_pos h, if_pos h]
      constructor
      · intro hl
        exact absurd hl (natCast_ne_negOne a)
      · omega
    · rw [if_neg h, if_neg h]
      exact hb.cc_deg i
  · -- label_owner
    intro i hi
    by_cases h : i = a ∨ i = b
    · refine ⟨a, ?_, ?_⟩
      · show (if a = a ∨ a = b then _ else _) = _
        rw [if_pos (Or.inl rfl)]
        show _ = (if i = a ∨ i = b then _ else _)
        rw [if_pos h]
      · show _ = (if i = a ∨ i = b then _ else _)
        rw [if_pos h]
    · have hi' : s.connected_component i ≠ -1 := by
        intro hl
        apply hi
        show (if i = a ∨ i = b then _ else _) = -1
        rw [if_neg h]
        exact hl
      obtain ⟨k, hk1, hk2⟩ := hb.label_owner i hi'
      have hka : k ≠ a := by
        intro hk
        rw [hk] at hk1
        rw [hca] at hk1
        exact hi' hk1.symm
      have hkb : k ≠ b := by
        intro hk
        rw [hk] at hk1
        rw [hcb] at hk1
        exact hi' hk1.symm
      refine ⟨k, ?_, ?_⟩
      · show (if k = a ∨ k = b then _ else _) = (if i = a ∨ i = b then _ else _)
        rw [if_neg (by tauto), if_neg h]
        exact hk1
      · show _ = (if i = a ∨ i = b then _ else _)
        rw [if_neg h]
        exact hk2
  · -- label_conn
    intro i j
    show Connected _ i j ↔ (i = j ∨ _)
    rw [connected_add_iff (s := s)
      (show ({ afterBumps s a b with connected_component := fun i =>
        if i = a ∨ i = b then ((a : Nat) : Int) else s.connected_component i
        : OrderState n}).edges_added
        = fun i j => if i = a ∧ j = b then true else s.edges_added i j from rfl),
      hsc i j]
    simp only [hb.label_conn]
    have h1 : ∀ x, sameComp s x a ↔ False :=
      fun x => ⟨fun ⟨e1, e2⟩ => e2 (e1.trans hca), False.elim⟩
    have h2 : ∀ x, sameComp s a x ↔ False :=
      fun x => ⟨fun ⟨e1, e2⟩ => e2 hca, False.elim⟩
    have h3 : ∀ x, sameComp s x b ↔ False :=
      fun x => ⟨fun ⟨e1, e2⟩ => e2 (e1.trans hcb), False.elim⟩
    have h4 : ∀ x, sameComp s b x ↔ False :=
      fun x => ⟨fun ⟨e1, e2⟩ => e2 hcb, False.elim⟩
    simp only [h1, h2, h3, h4, or_false, false_or]
    constructor
    · rintro ((h | h) | ⟨rfl, rfl⟩ | ⟨rfl, rfl⟩)
      · exact Or.inl h
      · exact Or.inr (Or.inl h)
      · exact Or.inr (Or.inr ⟨Or.inl rfl, Or.inr rfl⟩)
      · exact Or.inr (Or.inr ⟨Or.inr rfl, Or.inl rfl⟩)
    · rintro (h | h | ⟨(rfl | rfl), (rfl | rfl)⟩)
      · exact Or.inl (Or.inl h)
      · exact Or.inl (Or.inr h)
      · exact Or.inl (Or.inl rfl)
      · exact Or.inr (Or.inl ⟨rfl, rfl⟩)
      · exact Or.inr (Or.inr ⟨rfl, rfl⟩)
      · exact Or.inl (Or.inl rfl)
  · -- two_ends
    intro i hi
    by_cases h : i = a ∨ i = b
    · have hii : (if i = a ∨ i = b then ((a : Nat) : Int) else s.connected_component i)
        = ((a : Nat) : Int) := if_pos h
      have hfilter : (Finset.univ.filter fun j =>
          ({ afterBumps s a b with connected_component := fun i =>
            if i = a ∨ i = b then ((a : Nat) : Int) else s.connected_component i
            : OrderState n}).connected_component j =
          ({ afterBumps s a b with connected_component := fun i =>
            if i = a ∨ i = b then ((a : Nat) : Int) else s.connected_component i
            : OrderState n}).connected_component i ∧
          ({ afterBumps s a b with connected_component := fun i =>
            if i = a ∨ i = b then ((a : Nat) : Int) else s.connected_component i
            : OrderState n}).node_degrees j = 1) = {a, b} := by
        ext j
        simp only [Finset.mem_filter, Finset.mem_univ, true_and, Finset.mem_insert,
          Finset.mem_singleton]
        show ((if j = a ∨ j = b then _ else _) = (if i = a ∨ i = b then _ else _) ∧
          (afterBumps s a b).node_degrees j = 1) ↔ _
        rw [if_pos h, afterBumps_deg]
        constructor
        · rintro ⟨hj1, hj2⟩
          exact (hlabel j).1 hj1
        · intro hj
          rw [if_pos hj, if_pos hj]
          refine ⟨rfl, ?_⟩
          rcases hj with rfl | rfl
          · omega
          · omega
      rw [hfilter, Finset.card_insert_of_not_mem (by simp [hne]), Finset.card_singleton]
    · have hi' : s.connected_component i ≠ -1 := by
        intro hl
        apply hi
        show (if i = a ∨ i = b then _ else _) = -1
        rw [if_neg h]
        exact hl
      have hfilter : (Finset.univ.filter fun j =>
          ({ afterBumps s a b with connected_component := fun i =>
            if i = a ∨ i = b then ((a : Nat) : Int) else s.connected_component i
            : OrderState n}).connected_component j =
          ({ afterBumps s a b with connected_component := fun i =>
            if i = a ∨ i = b then ((a : Nat) : Int) else s.connected_component i
            : OrderState n}).connected_component i ∧
          ({ afterBumps s a b with connected_component := fun i =>
            if i = a ∨ i = b then ((a : Nat) : Int) else s.connected_component i
            : OrderState n}).node_degrees j = 1) =
          (Finset.univ.filter fun j =>
            s.connected_component j = s.connected_component i ∧ s.node_degrees j = 1) := by
        ext j
        simp only [Finset.mem_filter, Finset.mem_univ, true_and]
        show ((if j = a ∨ j = b then _ else _) = (if i = a ∨ i = b then _ else _) ∧
          (afterBumps s a b).node_degrees j = 1) ↔ _
        rw [if_neg h, afterBumps_deg]
        by_cases hj : j = a ∨ j = b
        · rw [if_pos hj, if_pos hj]
          constructor
          · rintro ⟨hj1, -⟩
            exfalso
            obtain ⟨k, hk1, hk2⟩ := hb.label_owner i hi'
            have hk : k = a := fin_eq_of_cast_eq (hk2.trans hj1.symm)
            rw [hk] at hk1
            rw [hca] at hk1
            exact hi' hk1.symm
          · rintro ⟨hj1, -⟩
            exfalso
            rcases hj with rfl | rfl
            · rw [hca] at hj1
              exact hi' hj1.symm
            · rw [hcb] at hj1
              exact hi' hj1.symm
        · rw [if_neg hj, if_neg hj]
      rw [hfilter]
      exact hb.two_ends i hi'
end TopicSort

namespace TopicSort

variable {n : Nat}

section BranchAbsorbLeft

variable {s : OrderState n} {a b : Fin n}

/-- Membership in the absorbed component (absorb-into-`b`'s-class branch). -/
theorem absorb_cc_eq_label (x : Fin n) :
    (Function.update s.connected_component a (s.connected_component b) x
      = s.connected_component b) ↔ (x = a ∨ s.connected_component x = s.connected_component b) := by
  by_cases hx : x = a
  · subst hx
    rw [Function.update_same]
    simp
  · rw [Function.update_noteq hx]
    simp [hx]

theorem sameComp_absorb_left (hca : s.connected_component a = -1)
    (hcb : s.connected_component b ≠ -1) {r : OrderState n}
    (hr : r.connected_component =
      Function.update s.connected_component a (s.connected_component b))
    (i j : Fin n) :
    sameComp r i j ↔
      (sameComp s i j ∨
        ((i = a ∨ s.connected_component i = s.connected_component b) ∧
         (j = a ∨ s.connected_component j = s.connected_component b))) := by
  unfold sameComp
  rw [hr]
  by_cases hi : i = a <;> by_cases hj : j = a
  · subst hi; subst hj
    rw [Function.update_same]
    simp [hcb]
  · subst hi
    rw [Function.update_same, Function.update_noteq hj]
    constructor
    · rintro ⟨h1, -⟩
      exact Or.inr ⟨Or.inl rfl, Or.inr h1.symm⟩
    · rintro (⟨h1, h2⟩ | ⟨-, (hj' | hj')⟩)
      · exact absurd hca h2
      · exact absurd hj' hj
      · exact ⟨hj'.symm, hcb⟩
  · subst hj
    rw [Function.update_same, Function.update_noteq hi]
    constructor
    · rintro ⟨h1, h2⟩
      exact Or.inr ⟨Or.inr h1, Or.inl rfl⟩
    · rintro (⟨h1, h2⟩ | ⟨(hi' | hi'), -⟩)
      · exfalso
        rw [h1] at h2
        exact h2 hca
      · exact absurd hi' hi
      · exact ⟨hi', hi' ▸ hcb⟩
  · rw [Function.update_noteq hi, Function.update_noteq hj]
    constructor
    · intro h
      exact Or.inl h
    · rintro (h | ⟨(hi' | hi'), (hj' | hj')⟩)
      · exact h
      · exact absurd hi' hi
      · exact absurd hi' hi
      · exact absurd hj' hj
      · exact ⟨hi'.trans hj'.symm, hi' ▸ hcb⟩

end BranchAbsorbLeft

end TopicSort

namespace TopicSort

variable {n : Nat}

theorem branch_absorb_left_core {s : OrderState n} {a b : Fin n}
    (hc : CommonInv s) (hb : BuildingCore s) (hf : s.feasible_edges a b = true)
    (hca : s.connected_component a = -1) (hcb : s.connected_component b ≠ -1) :
    BuildingCore { afterBumps s a b with
      connected_component := Function.update s.connected_component a (s.connected_component b)
      feasible_edges := fun i j =>
        if (i = a ∧ Function.update s.connected_component a (s.connected_component b) j =
              s.connected_component b) ∨
           (Function.update s.connected_component a (s.connected_component b) i =
              s.connected_component b ∧ j = a)
        then false else (afterBumps s a b).feasible_edges i j } := by
  obtain ⟨hab, h2a, h2b, hnsc, hda, hdb⟩ := building_feas_facts hc hb hf
  have hne : a ≠ b := fin_ne_of_val_lt hab
  have hM := absorb_cc_eq_label (s := s) (a := a) (b := b)
  have hsc := sameComp_absorb_left (r := { afterBumps s a b with
      connected_component := Function.update s.connected_component a (s.connected_component b)
      feasible_edges := fun i j =>
        if (i = a ∧ Function.update s.connected_component a (s.connected_component b) j =
              s.connected_component b) ∨
           (Function.update s.connected_component a (s.connected_component b) i =
              s.connected_component b ∧ j = a)
        then false else (afterBumps s a b).feasible_edges i j }) hca hcb rfl
  have hdega : s.node_degrees a = 0 := (hb.cc_deg a).1 hca
  have hdegb1 : s.node_degrees b = 1 := by
    have := (hb.cc_deg b).not.1 hcb
    omega
  refine ⟨hb.not_complete, ?_, ?_, ?_, ?_, ?_⟩
  · -- feas_char
    intro i j
    show (if (i = a ∧ Function.update s.connected_component a (s.connected_component b) j =
              s.connected_component b) ∨
           (Function.update s.connected_component a (s.connected_component b) i =
              s.connected_component b ∧ j = a)
        then false else (afterBumps s a b).feasible_edges i j) = true ↔
      ((i : Nat) < j ∧ (afterBumps s a b).node_degrees i < 2 ∧
        (afterBumps s a b).node_degrees j < 2 ∧ ¬ _)
    by_cases hrem : (i = a ∧ Function.update s.connected_component a (s.connected_component b) j =
          s.connected_component b) ∨
        (Function.update s.connected_component a (s.connected_component b) i =
          s.connected_component b ∧ j = a)
    · rw [if_pos hrem]
      simp only [Bool.false_eq_true, false_iff]
      rintro ⟨hij, hdi, hdj, hsr⟩
      rcases hrem with ⟨hia, hjm⟩ | ⟨him, hja⟩
      · exact hsr ((hsc i j).2 (Or.inr ⟨Or.inl hia, (hM j).1 hjm⟩))
      · exact hsr ((hsc i j).2 (Or.inr ⟨(hM i).1 him, Or.inl hja⟩))
    · rw [if_neg hrem, afterBumps_feas_char hb.feas_char i j]
      constructor
      · rintro ⟨hij, hdi, hdj, hsij, hnab⟩
        refine ⟨hij, hdi, hdj, ?_⟩
        rw [hsc i j]
        rintro (h | ⟨hmi, hmj⟩)
        · exact hsij h
        · rcases hmi with hia | hil
          · exact hrem (Or.inl ⟨hia, (hM j).2 hmj⟩)
          · rcases hmj with hja | hjl
            · exact hrem (Or.inr ⟨(hM i).2 (Or.inr hil), hja⟩)
            · exact hsij ⟨hil.trans hjl.symm, hil ▸ hcb⟩
      · rintro ⟨hij, hdi, hdj, hsr⟩
        rw [hsc i j] at hsr
        refine ⟨hij, hdi, hdj, fun h => hsr (Or.inl h), ?_⟩
        rintro ⟨rfl, rfl⟩
        exact hsr (Or.inr ⟨Or.inl rfl, Or.inr rfl⟩)
  · -- cc_deg
    intro x
    show Function.update s.connected_component a (s.connected_component b) x = -1 ↔
      (afterBumps s a b).node_degrees x = 0
    rw [afterBumps_deg]
    by_cases hxa : x = a
    · subst hxa
      rw [Function.update_same, if_pos (Or.inl rfl)]
      constructor
      · intro h
        exact absurd h hcb
      · omega
    · rw [Function.update_noteq hxa]
      by_cases hxb : x = b
      · subst hxb
        rw [if_pos (Or.inr rfl)]
        constructor
        · intro h
          exact absurd h hcb
        · omega
      · rw [if_neg (by tauto)]
        exact hb.cc_deg x
  · -- label_owner
    intro i hi
    by_cases him : Function.update s.connected_component a (s.connected_component b) i =
        s.connected_component b
    · obtain ⟨k, hk1, hk2⟩ := hb.label_owner b hcb
      have hka : k ≠ a := by
        intro h
        rw [h, hca] at hk1
        exact hcb hk1.symm
      refine ⟨k, ?_, ?_⟩
      · show Function.update s.connected_component a (s.connected_component b) k =
          Function.update s.connected_component a (s.connected_component b) i
        rw [Function.update_noteq hka, him]
        exact hk1
      · show ((k : Nat) : Int) =
          Function.update s.connected_component a (s.connected_component b) i
        rw [him]
        exact hk2
    · have hia : i ≠ a := by
        intro h
        rw [h, Function.update_same] at him
        exact him rfl
      have hi' : s.connected_component i ≠ -1 := by
        intro h
        apply hi
        show Function.update s.connected_component a (s.connected_component b) i = -1
        rw [Function.update_noteq hia]
        exact h
      obtain ⟨k, hk1, hk2⟩ := hb.label_owner i hi'
      have hka : k ≠ a := by
        intro h
        rw [h, hca] at hk1
        exact hi' hk1.symm
      refine ⟨k, ?_, ?_⟩
      · show Function.update s.connected_component a (s.connected_component b) k =
          Function.update s.connected_component a (s.connected_component b) i
        rw [Function.update_noteq hka, Function.update_noteq hia]
        exact hk1
      · show ((k : Nat) : Int) =
          Function.update s.connected_component a (s.connected_component b) i
        rw [Function.update_noteq hia]
        exact hk2
  · -- label_conn
    intro i j
    show Connected _ i j ↔ (i = j ∨ _)
    rw [connected_add_iff (s := s)
      (show ({ afterBumps s a b with
        connected_component := Function.update s.connected_component a (s.connected_component b)
        feasible_edges := fun i j =>
          if (i = a ∧ Function.update s.connected_component a (s.connected_component b) j =
                s.connected_component b) ∨
             (Function.update s.connected_component a (s.connected_component b) i =
                s.connected_component b ∧ j = a)
          then false else (afterBumps s a b).feasible_edges i j
        : OrderState n}).edges_added
        = fun i j => if i = a ∧ j = b then true else s.edges_added i j from rfl),
      hsc i j]
    simp only [hb.label_conn]
    have hxa1 : ∀ x, sameComp s x a ↔ False :=
      fun x => ⟨fun ⟨e1, e2⟩ => e2 (e1.trans hca), False.elim⟩
    have hxa2 : ∀ x, sameComp s a x ↔ False :=
      fun x => ⟨fun ⟨e1, e2⟩ => e2 hca, False.elim⟩
    simp only [hxa1, hxa2, or_false, false_or]
    constructor
    · rintro ((h | h) | ⟨rfl, (rfl | hbj)⟩ | ⟨(rfl | hib), rfl⟩)
      · exact Or.inl h
      · exact Or.inr (Or.inl h)
      · exact Or.inr (Or.inr ⟨Or.inl rfl, Or.inr rfl⟩)
      · exact Or.inr (Or.inr ⟨Or.inl rfl, Or.inr hbj.1.symm⟩)
      · exact Or.inr (Or.inr ⟨Or.inr rfl, Or.inl rfl⟩)
      · exact Or.inr (Or.inr ⟨Or.inr hib.1, Or.inl rfl⟩)
    · rintro (h | h | ⟨(rfl | hi'), (rfl | hj')⟩)
      · exact Or.inl (Or.inl h)
      · exact Or.inl (Or.inr h)
      · exact Or.inl (Or.inl rfl)
      · exact Or.inr (Or.inl ⟨rfl, Or.inr ⟨hj'.symm, hcb⟩⟩)
      · exact Or.inr (Or.inr ⟨Or.inr ⟨hi', hi' ▸ hcb⟩, rfl⟩)
      · exact Or.inl (Or.inr ⟨hi'.trans hj'.symm, hi' ▸ hcb⟩)
  · -- two_ends
    intro i hi
    by_cases him : Function.update s.connected_component a (s.connected_component b) i =
        s.connected_component b
    · have hFcard := hb.two_ends b hcb
      have hbF : b ∈ Finset.univ.filter (fun j =>
          s.connected_component j = s.connected_component b ∧ s.node_degrees j = 1) := by
        simp [hdegb1]
      have hfilter : (Finset.univ.filter fun j =>
          Function.update s.connected_component a (s.connected_component b) j =
            Function.update s.connected_component a (s.connected_component b) i ∧
          (afterBumps s a b).node_degrees j = 1) =
          insert a ((Finset.univ.filter (fun j =>
            s.connected_component j = s.connected_component b ∧ s.node_degrees j = 1)).erase b) := by
        ext j
        simp only [Finset.mem_filter, Finset.mem_univ, true_and, Finset.mem_insert,
          Finset.mem_erase]
        rw [him, afterBumps_deg]
        by_cases hja : j = a
        · subst hja
          rw [Function.update_same, if_pos (Or.inl rfl)]
          constructor
          · intro _
            exact Or.inl rfl
          · intro _
            exact ⟨rfl, by omega⟩
        · rw [Function.update_noteq hja]
          by_cases hjb : j = b
          · subst hjb
            rw [if_pos (Or.inr rfl)]
            constructor
            · rintro ⟨-, hd⟩
              omega
            · rintro (h | ⟨h, -⟩)
              · exact absurd h hja
              · exact absurd rfl h
          · rw [if_neg (by tauto)]
            constructor
            · rintro ⟨h1, h2⟩
              exact Or.inr ⟨hjb, h1, h2⟩
            · rintro (h | ⟨-, h1, h2⟩)
              · exact absurd h hja
              · exact ⟨h1, h2⟩
      show (Finset.univ.filter fun j =>
          Function.update s.connected_component a (s.connected_component b) j =
            Function.update s.connected_component a (s.connected_component b) i ∧
          (afterBumps s a b).node_degrees j = 1).card = 2
      rw [hfilter, Finset.card_insert_of_not_mem, Finset.card_erase_of_mem hbF, hFcard]
      intro h
      rw [Finset.mem_erase, Finset.mem_filter] at h
      exact hcb (h.2.2.1.symm.trans hca)
    · have hia : i ≠ a := by
        intro h
        rw [h, Function.update_same] at him
        exact him rfl
      have hi' : s.connected_component i ≠ -1 := by
        intro h
        apply hi
        show Function.update s.connected_component a (s.connected_component b) i = -1
        rw [Function.update_noteq hia]
        exact h
      have hiL : s.connected_component i ≠ s.connected_component b := by
        intro h
        apply him
        rw [Function.update_noteq hia]
        exact h
      have hfilter : (Finset.univ.filter fun j =>
          Function.update s.connected_component a (s.connected_component b) j =
            Function.update s.connected_component a (s.connected_component b) i ∧
          (afterBumps s a b).node_degrees j = 1) =
          Finset.univ.filter (fun j =>
            s.connected_component j = s.connected_component i ∧ s.node_degrees j = 1) := by
        ext j
        simp only [Finset.mem_filter, Finset.mem_univ, true_and]
        rw [Function.update_noteq hia, afterBumps_deg]
        by_cases hja : j = a
        · subst hja
          rw [Function.update_same, if_pos (Or.inl rfl)]
          constructor
          · rintro ⟨h1, -⟩
            exact absurd h1.symm hiL
          · rintro ⟨h1, -⟩
            rw [hca] at h1
            exact absurd h1.symm hi'
        · rw [Function.update_noteq hja]
          by_cases hjb : j = b
          · subst hjb
            rw [if_pos (Or.inr rfl)]
            constructor
            · rintro ⟨-, hd⟩
              omega
            · rintro ⟨h1, -⟩
              exact absurd h1.symm hiL
          · rw [if_neg (by tauto)]
      show (Finset.univ.filter fun j =>
          Function.update s.connected_component a (s.connected_component b) j =
            Function.update s.connected_component a (s.connected_component b) i ∧
          (afterBumps s a b).node_degrees j = 1).card = 2
      rw [hfilter]
      exact hb.two_ends i hi'

end TopicSort

namespace TopicSort

variable {n : Nat}

theorem branch_absorb_right_core {s : OrderState n} {a b : Fin n}
    (hc : CommonInv s) (hb : BuildingCore s) (hf : s.feasible_edges a b = true)
    (hca : s.connected_component a ≠ -1) (hcb : s.connected_component b = -1) :
    BuildingCore { afterBumps s a b with
      connected_component := Function.update s.connected_component b (s.connected_component a)
      feasible_edges := fun i j =>
        if (i = b ∧ Function.update s.connected_component b (s.connected_component a) j =
              s.connected_component a) ∨
           (Function.update s.connected_component b (s.connected_component a) i =
              s.connected_component a ∧ j = b)
        then false else (afterBumps s a b).feasible_edges i j } := by
  obtain ⟨hab, h2a, h2b, hnsc, hda, hdb⟩ := building_feas_facts hc hb hf
  have hne : a ≠ b := fin_ne_of_val_lt hab
  have hM := absorb_cc_eq_label (s := s) (a := b) (b := a)
  have hsc := sameComp_absorb_left (s := s) (a := b) (b := a)
    (r := { afterBumps s a b with
      connected_component := Function.update s.connected_component b (s.connected_component a)
      feasible_edges := fun i j =>
        if (i = b ∧ Function.update s.connected_component b (s.connected_component a) j =
              s.connected_component a) ∨
           (Function.update s.connected_component b (s.connected_component a) i =
              s.connected_component a ∧ j = b)
        then false else (afterBumps s a b).feasible_edges i j }) hcb hca rfl
  have hdegb : s.node_degrees b = 0 := (hb.cc_deg b).1 hcb
  have hdega1 : s.node_degrees a = 1 := by
    have := (hb.cc_deg a).not.1 hca
    omega
  refine ⟨hb.not_complete, ?_, ?_, ?_, ?_, ?_⟩
  · -- feas_char
    intro i j
    show (if (i = b ∧ Function.update s.connected_component b (s.connected_component a) j =
              s.connected_component a) ∨
           (Function.update s.connected_component b (s.connected_component a) i =
              s.connected_component a ∧ j = b)
        then false else (afterBumps s a b).feasible_edges i j) = true ↔
      ((i : Nat) < j ∧ (afterBumps s a b).node_degrees i < 2 ∧
        (afterBumps s a b).node_degrees j < 2 ∧ ¬ _)
    by_cases hrem : (i = b ∧ Function.update s.connected_component b (s.connected_component a) j =
          s.connected_component a) ∨
        (Function.update s.connected_component b (s.connected_component a) i =
          s.connected_component a ∧ j = b)
    · rw [if_pos hrem]
      simp only [Bool.false_eq_true, false_iff]
      rintro ⟨hij, hdi, hdj, hsr⟩
      rcases hrem with ⟨hib, hjm⟩ | ⟨him, hjb⟩
      · exact hsr ((hsc i j).2 (Or.inr ⟨Or.inl hib, (hM j).1 hjm⟩))
      · exact hsr ((hsc i j).2 (Or.inr ⟨(hM i).1 him, Or.inl hjb⟩))
    · rw [if_neg hrem, afterBumps_feas_char hb.feas_char i j]
      constructor
      · rintro ⟨hij, hdi, hdj, hsij, hnab⟩
        refine ⟨hij, hdi, hdj, ?_⟩
        rw [hsc i j]
        rintro (h | ⟨hmi, hmj⟩)
        · exact hsij h
        · rcases hmi with hib | hil
          · exact hrem (Or.inl ⟨hib, (hM j).2 hmj⟩)
          · rcases hmj with hjb | hjl
            · exact hrem (Or.inr ⟨(hM i).2 (Or.inr hil), hjb⟩)
            · exact hsij ⟨hil.trans hjl.symm, hil ▸ hca⟩
      · rintro ⟨hij, hdi, hdj, hsr⟩
        rw [hsc i j] at hsr
        refine ⟨hij, hdi, hdj, fun h => hsr (Or.inl h), ?_⟩
        rintro ⟨rfl, rfl⟩
        exact hsr (Or.inr ⟨Or.inr rfl, Or.inl rfl⟩)
  · -- cc_deg
    intro x
    show Function.update s.connected_component b (s.connected_component a) x = -1 ↔
      (afterBumps s a b).node_degrees x = 0
    rw [afterBumps_deg]
    by_cases hxb : x = b
    · subst hxb
      rw [Function.update_same, if_pos (Or.inr rfl)]
      constructor
      · intro h
        exact absurd h hca
      · omega
    · rw [Function.update_noteq hxb]
      by_cases hxa : x = a
      · subst hxa
        rw [if_pos (Or.inl rfl)]
        constructor
        · intro h
          exact absurd h hca
        · omega
      · rw [if_neg (by tauto)]
        exact hb.cc_deg x
  · -- label_owner
    intro i hi
    by_cases him : Function.update s.connected_component b (s.connected_component a) i =
        s.connected_component a
    · obtain ⟨k, hk1, hk2⟩ := hb.label_owner a hca
      have hkb : k ≠ b := by
        intro h
        rw [h, hcb] at hk1
        exact hca hk1.symm
      refine ⟨k, ?_, ?_⟩
      · show Function.update s.connected_component b (s.connected_component a) k =
          Function.update s.connected_component b (s.connected_component a) i
        rw [Function.update_noteq hkb, him]
        exact hk1
      · show ((k : Nat) : Int) =
          Function.update s.connected_component b (s.connected_component a) i
        rw [him]
        exact hk2
    · have hib : i ≠ b := by
        intro h
        rw [h, Function.update_same] at him
        exact him rfl
      have hi' : s.connected_component i ≠ -1 := by
        intro h
        apply hi
        show Function.update s.connected_component b (s.connected_component a) i = -1
        rw [Function.update_noteq hib]
        exact h
      obtain ⟨k, hk1, hk2⟩ := hb.label_owner i hi'
      have hkb : k ≠ b := by
        intro h
        rw [h, hcb] at hk1
        exact hi' hk1.symm
      refine ⟨k, ?_, ?_⟩
      · show Function.update s.connected_component b (s.connected_component a) k =
          Function.update s.connected_component b (s.connected_component a) i
        rw [Function.update_noteq hkb, Function.update_noteq hib]
        exact hk1
      · show ((k : Nat) : Int) =
          Function.update s.connected_component b (s.connected_component a) i
        rw [Function.update_noteq hib]
        exact hk2
  · -- label_conn
    intro i j
    show Connected _ i j ↔ (i = j ∨ _)
    rw [connected_add_iff (s := s)
      (show ({ afterBumps s a b with
        connected_component := Function.update s.connected_component b (s.connected_component a)
        feasible_edges := fun i j =>
          if (i = b ∧ Function.update s.connected_component b (s.connected_component a) j =
                s.connected_component a) ∨
             (Function.update s.connected_component b (s.connected_component a) i =
                s.connected_component a ∧ j = b)
          then false else (afterBumps s a b).feasible_edges i j
        : OrderState n}).edges_added
        = fun i j => if i = a ∧ j = b then true else s.edges_added i j from rfl),
      hsc i j]
    simp only [hb.label_conn]
    have hxb1 : ∀ x, sameComp s x b ↔ False :=
      fun x => ⟨fun ⟨e1, e2⟩ => e2 (e1.trans hcb), False.elim⟩
    have hxb2 : ∀ x, sameComp s b x ↔ False :=
      fun x => ⟨fun ⟨e1, e2⟩ => e2 hcb, False.elim⟩
    simp only [hxb1, hxb2, or_false, false_or]
    constructor
    · rintro ((h | h) | ⟨(rfl | hia), rfl⟩ | ⟨rfl, (rfl | haj)⟩)
      · exact Or.inl h
      · exact Or.inr (Or.inl h)
      · exact Or.inr (Or.inr ⟨Or.inr rfl, Or.inl rfl⟩)
      · exact Or.inr (Or.inr ⟨Or.inr hia.1, Or.inl rfl⟩)
      · exact Or.inr (Or.inr ⟨Or.inl rfl, Or.inr rfl⟩)
      · exact Or.inr (Or.inr ⟨Or.inl rfl, Or.inr haj.1.symm⟩)
    · rintro (h | h | ⟨(rfl | hi'), (rfl | hj')⟩)
      · exact Or.inl (Or.inl h)
      · exact Or.inl (Or.inr h)
      · exact Or.inl (Or.inl rfl)
      · exact Or.inr (Or.inr ⟨rfl, Or.inr ⟨hj'.symm, hca⟩⟩)
      · exact Or.inr (Or.inl ⟨Or.inr ⟨hi', hi' ▸ hca⟩, rfl⟩)
      · exact Or.inl (Or.inr ⟨hi'.trans hj'.symm, hi' ▸ hca⟩)
  · -- two_ends
    intro i hi
    by_cases him : Function.update s.connected_component b (s.connected_component a) i =
        s.connected_component a
    · have hFcard := hb.two_ends a hca
      have haF : a ∈ Finset.univ.filter (fun j =>
          s.connected_component j = s.connected_component a ∧ s.node_degrees j = 1) := by
        simp [hdega1]
      have hfilter : (Finset.univ.filter fun j =>
          Function.update s.connected_component b (s.connected_component a) j =
            Function.update s.connected_component b (s.connected_component a) i ∧
          (afterBumps s a b).node_degrees j = 1) =
          insert b ((Finset.univ.filter (fun j =>
            s.connected_component j = s.connected_component a ∧ s.node_degrees j = 1)).erase a) := by
        ext j
        simp only [Finset.mem_filter, Finset.mem_univ, true_and, Finset.mem_insert,
          Finset.mem_erase]
        rw [him, afterBumps_deg]
        by_cases hjb : j = b
        · subst hjb
          rw [Function.update_same, if_pos (Or.inr rfl)]
          constructor
          · intro _
            exact Or.inl rfl
          · intro _
            exact ⟨rfl, by omega⟩
        · rw [Function.update_noteq hjb]
          by_cases hja : j = a
          · subst hja
            rw [if_pos (Or.inl rfl)]
            constructor
            · rintro ⟨-, hd⟩
              omega
            · rintro (h | ⟨h, -⟩)
              · exact absurd h hjb
              · exact absurd rfl h
          · rw [if_neg (by tauto)]
            constructor
            · rintro ⟨h1, h2⟩
              exact Or.inr ⟨hja, h1, h2⟩
            · rintro (h | ⟨-, h1, h2⟩)
              · exact absurd h hjb
              · exact ⟨h1, h2⟩
      show (Finset.univ.filter fun j =>
          Function.update s.connected_component b (s.connected_component a) j =
            Function.update s.connected_component b (s.connected_component a) i ∧
          (afterBumps s a b).node_degrees j = 1).card = 2
      rw [hfilter, Finset.card_insert_of_not_mem, Finset.card_erase_of_mem haF, hFcard]
      intro h
      rw [Finset.mem_erase, Finset.mem_filter] at h
      exact hca (h.2.2.1.symm.trans hcb)
    · have hib : i ≠ b := by
        intro h
        rw [h, Function.update_same] at him
        exact him rfl
      have hi' : s.connected_component i ≠ -1 := by
        intro h
        apply hi
        show Function.update s.connected_component b (s.connected_component a) i = -1
        rw [Function.update_noteq hib]
        exact h
      have hiL : s.connected_component i ≠ s.connected_component a := by
        intro h
        apply him
        rw [Function.update_noteq hib]
        exact h
      have hfilter : (Finset.univ.filter fun j =>
          Function.update s.connected_component b (s.connected_component a) j =
            Function.update s.connected_component b (s.connected_component a) i ∧
          (afterBumps s a b).node_degrees j = 1) =
          Finset.univ.filter (fun j =>
            s.connected_component j = s.connected_component i ∧ s.node_degrees j = 1) := by
        ext j
        simp only [Finset.mem_filter, Finset.mem_univ, true_and]
        rw [Function.update_noteq hib, afterBumps_deg]
        by_cases hjb : j = b
        · subst hjb
          rw [Function.update_same, if_pos (Or.inr rfl)]
          constructor
          · rintro ⟨h1, -⟩
            exact absurd h1.symm hiL
          · rintro ⟨h1, -⟩
            rw [hcb] at h1
            exact absurd h1.symm hi'
        · rw [Function.update_noteq hjb]
          by_cases hja : j = a
          · subst hja
            rw [if_pos (Or.inl rfl)]
            constructor
            · rintro ⟨-, hd⟩
              omega
            · rintro ⟨h1, -⟩
              exact absurd h1.symm hiL
          · rw [if_neg (by tauto)]
      show (Finset.univ.filter fun j =>
          Function.update s.connected_component b (s.connected_component a) j =
            Function.update s.connected_component b (s.connected_component a) i ∧
          (afterBumps s a b).node_degrees j = 1).card = 2
      rw [hfilter]
      exact hb.two_ends i hi'

end TopicSort

namespace TopicSort

variable {n : Nat}

section BranchMerge

variable {s : OrderState n} {a b : Fin n}

theorem merge_cc_eq_label (x : Fin n) :
    ((if s.connected_component x = s.connected_component b then s.connected_component a
      else s.connected_component x) = s.connected_component a) ↔
    (s.connected_component x = s.connected_component a ∨
      s.connected_component x = s.connected_component b) := by
  by_cases h : s.connected_component x = s.connected_component b
  · simp [h]
  · rw [if_neg h]
    simp [h]

theorem sameComp_merge (hca : s.connected_component a ≠ -1)
    (hcb : s.connected_component b ≠ -1)
    (hne : s.connected_component a ≠ s.connected_component b) {r : OrderState n}
    (hr : r.connected_component = fun i =>
      if s.connected_component i = s.connected_component b then s.connected_component a
      else s.connected_component i)
    (i j : Fin n) :
    sameComp r i j ↔
      (sameComp s i j ∨
        ((s.connected_component i = s.connected_component a ∨
            s.connected_component i = s.connected_component b) ∧
         (s.connected_component j = s.connected_component a ∨
            s.connected_component j = s.connected_component b))) := by
  unfold sameComp
  simp only [hr]
  by_cases hi : s.connected_component i = s.connected_component b <;>
    by_cases hj : s.connected_component j = s.connected_component b
  · rw [if_pos hi, if_pos hj]
    constructor
    · intro _
      exact Or.inr ⟨Or.inr hi, Or.inr hj⟩
    · intro _
      exact ⟨rfl, hca⟩
  · rw [if_pos hi, if_neg hj]
    constructor
    · rintro ⟨h1, -⟩
      exact Or.inr ⟨Or.inr hi, Or.inl h1.symm⟩
    · rintro (⟨h1, h2⟩ | ⟨-, (hj' | hj')⟩)
      · exact absurd (h1.symm.trans hi) hj
      · exact ⟨hj'.symm, hca⟩
      · exact absurd hj' hj
  · rw [if_neg hi, if_pos hj]
    constructor
    · rintro ⟨h1, h2⟩
      exact Or.inr ⟨Or.inl h1, Or.inr hj⟩
    · rintro (⟨h1, h2⟩ | ⟨(hi' | hi'), -⟩)
      · exact absurd (h1.trans hj) hi
      · exact ⟨hi', hi' ▸ hca⟩
      · exact absurd hi' hi
  · rw [if_neg hi, if_neg hj]
    constructor
    · intro h
      exact Or.inl h
    · rintro (h | ⟨(hi' | hi'), (hj' | hj')⟩)
      · exact h
      · exact ⟨hi'.trans hj'.symm, hi' ▸ hca⟩
      · exact absurd hj' hj
      · exact absurd hi' hi
      · exact absurd hi' hi

end BranchMerge

end TopicSort

namespace TopicSort

variable {n : Nat}

theorem branch_merge_core {s : OrderState n} {a b : Fin n}
    (hc : CommonInv s) (hb : BuildingCore s) (hf : s.feasible_edges a b = true)
    (hca : s.connected_component a ≠ -1) (hcb : s.connected_component b ≠ -1) :
    BuildingCore { afterBumps s a b with
      connected_component := fun i =>
        if s.connected_component i = s.connected_component b then s.connected_component a
        else s.connected_component i
      feasible_edges := fun i j =>
        if (if s.connected_component i = s.connected_component b then s.connected_component a
            else s.connected_component i) = s.connected_component a ∧
           (if s.connected_component j = s.connected_component b then s.connected_component a
            else s.connected_component j) = s.connected_component a
        then false else (afterBumps s a b).feasible_edges i j } := by
  obtain ⟨hab, h2a, h2b, hnsc, hda, hdb⟩ := building_feas_facts hc hb hf
  have hne : a ≠ b := fin_ne_of_val_lt hab
  have hLne : s.connected_component a ≠ s.connected_component b := by
    intro h
    exact hnsc ⟨h, hca⟩
  have hM := merge_cc_eq_label (s := s) (a := a) (b := b)
  have hsc := sameComp_merge (r := { afterBumps s a b with
      connected_component := fun i =>
        if s.connected_component i = s.connected_component b then s.connected_component a
        else s.connected_component i
      feasible_edges := fun i j =>
        if (if s.connected_component i = s.connected_component b then s.connected_component a
            else s.connected_component i) = s.connected_component a ∧
           (if s.connected_component j = s.connected_component b then s.connected_component a
            else s.connected_component j) = s.connected_component a
        then false else (afterBumps s a b).feasible_edges i j }) hca hcb hLne rfl
  have hdega1 : s.node_degrees a = 1 := by
    have := (hb.cc_deg a).not.1 hca
    omega
  have hdegb1 : s.node_degrees b = 1 := by
    have := (hb.cc_deg b).not.1 hcb
    omega
  refine ⟨hb.not_complete, ?_, ?_, ?_, ?_, ?_⟩
  · -- feas_char
    intro i j
    show (if (if s.connected_component i = s.connected_component b then s.connected_component a
            else s.connected_component i) = s.connected_component a ∧
           (if s.connected_component j = s.connected_component b then s.connected_component a
            else s.connected_component j) = s.connected_component a
        then false else (afterBumps s a b).feasible_edges i j) = true ↔
      ((i : Nat) < j ∧ (afterBumps s a b).node_degrees i < 2 ∧
        (afterBumps s a b).node_degrees j < 2 ∧ ¬ _)
    by_cases hrem : (if s.connected_component i = s.connected_component b
          then s.connected_component a else s.connected_component i) = s.connected_component a ∧
        (if s.connected_component j = s.connected_component b
          then s.connected_component a else s.connected_component j) = s.connected_component a
    · rw [if_pos hrem]
      simp only [Bool.false_eq_true, false_iff]
      rintro ⟨hij, hdi, hdj, hsr⟩
      exact hsr ((hsc i j).2 (Or.inr ⟨(hM i).1 hrem.1, (hM j).1 hrem.2⟩))
    · rw [if_neg hrem, afterBumps_feas_char hb.feas_char i j]
      constructor
      · rintro ⟨hij, hdi, hdj, hsij, hnab⟩
        refine ⟨hij, hdi, hdj, ?_⟩
        rw [hsc i j]
        rintro (h | ⟨hmi, hmj⟩)
        · exact hsij h
        · exact hrem ⟨(hM i).2 hmi, (hM j).2 hmj⟩
      · rintro ⟨hij, hdi, hdj, hsr⟩
        rw [hsc i j] at hsr
        refine ⟨hij, hdi, hdj, fun h => hsr (Or.inl h), ?_⟩
        rintro ⟨rfl, rfl⟩
        exact hsr (Or.inr ⟨Or.inl rfl, Or.inr rfl⟩)
  · -- cc_deg
    intro x
    show (if s.connected_component x = s.connected_component b then s.connected_component a
        else s.connected_component x) = -1 ↔ (afterBumps s a b).node_degrees x = 0
    rw [afterBumps_deg]
    by_cases hxb : s.connected_component x = s.connected_component b
    · rw [if_pos hxb]
      have hd : s.node_degrees x ≠ 0 := by
        intro h
        have hx1 := (hb.cc_deg x).2 h
        rw [hxb] at hx1
        exact hcb hx1
      constructor
      · intro h
        exact absurd h hca
      · intro h
        exfalso
        by_cases hmem : x = a ∨ x = b
        · rw [if_pos hmem] at h
          omega
        · rw [if_neg hmem] at h
          exact hd h
    · rw [if_neg hxb]
      have hxbne : x ≠ b := fun h => hxb (h ▸ rfl)
      by_cases hxa : x = a
      · subst hxa
        rw [if_pos (Or.inl rfl)]
        constructor
        · intro h
          exact absurd h hca
        · omega
      · rw [if_neg (by tauto)]
        exact hb.cc_deg x
  · -- label_owner
    intro i hi
    by_cases him : (if s.connected_component i = s.connected_component b
        then s.connected_component a else s.connected_component i) = s.connected_component a
    · obtain ⟨k, hk1, hk2⟩ := hb.label_owner a hca
      have hkb : s.connected_component k ≠ s.connected_component b := by
        rw [hk1]
        exact hLne
      refine ⟨k, ?_, ?_⟩
      · show (if s.connected_component k = s.connected_component b then s.connected_component a
          else s.connected_component k) =
          (if s.connected_component i = s.connected_component b then s.connected_component a
          else s.connected_component i)
        rw [if_neg hkb, him]
        exact hk1
      · show ((k : Nat) : Int) =
          (if s.connected_component i = s.connected_component b then s.connected_component a
          else s.connected_component i)
        rw [him]
        exact hk2
    · have hiLb : s.connected_component i ≠ s.connected_component b := by
        intro h
        exact him (by rw [if_pos h])
      have hi' : s.connected_component i ≠ -1 := by
        intro h
        apply hi
        show (if s.connected_component i = s.connected_component b then s.connected_component a
          else s.connected_component i) = -1
        rw [if_neg hiLb]
        exact h
      obtain ⟨k, hk1, hk2⟩ := hb.label_owner i hi'
      have hkb : s.connected_component k ≠ s.connected_component b := by
        rw [hk1]
        exact hiLb
      refine ⟨k, ?_, ?_⟩
      · show (if s.connected_component k = s.connected_component b then s.connected_component a
          else s.connected_component k) =
          (if s.connected_component i = s.connected_component b then s.connected_component a
          else s.connected_component i)
        rw [if_neg hkb, if_neg hiLb]
        exact hk1
      · show ((k : Nat) : Int) =
          (if s.connected_component i = s.connected_component b then s.connected_component a
          else s.connected_component i)
        rw [if_neg hiLb]
        exact hk2
  · -- label_conn
    intro i j
    show Connected _ i j ↔ (i = j ∨ _)
    rw [connected_add_iff (s := s)
      (show ({ afterBumps s a b with
        connected_component := fun i =>
          if s.connected_component i = s.connected_component b then s.connected_component a
          else s.connected_component i
        feasible_edges := fun i j =>
          if (if s.connected_component i = s.connected_component b then s.connected_component a
              else s.connected_component i) = s.connected_component a ∧
             (if s.connected_component j = s.connected_component b then s.connected_component a
              else s.connected_component j) = s.connected_component a
          then false else (afterBumps s a b).feasible_edges i j
        : OrderState n}).edges_added
        = fun i j => if i = a ∧ j = b then true else s.edges_added i j from rfl),
      hsc i j]
    simp only [hb.label_conn]
    constructor
    · rintro ((h | h) | ⟨h1, h2⟩ | ⟨h1, h2⟩)
      · exact Or.inl h
      · exact Or.inr (Or.inl h)
      · refine Or.inr (Or.inr ⟨?_, ?_⟩)
        · rcases h1 with rfl | hs
          · exact Or.inl rfl
          · exact Or.inl hs.1
        · rcases h2 with rfl | hs
          · exact Or.inr rfl
          · exact Or.inr hs.1.symm
      · refine Or.inr (Or.inr ⟨?_, ?_⟩)
        · rcases h1 with rfl | hs
          · exact Or.inr rfl
          · exact Or.inr hs.1
        · rcases h2 with rfl | hs
          · exact Or.inl rfl
          · exact Or.inl hs.1.symm
    · rintro (h | h | ⟨(hi' | hi'), (hj' | hj')⟩)
      · exact Or.inl (Or.inl h)
      · exact Or.inl (Or.inr h)
      · exact Or.inl (Or.inr ⟨hi'.trans hj'.symm, hi' ▸ hca⟩)
      · exact Or.inr (Or.inl ⟨Or.inr ⟨hi', hi' ▸ hca⟩, Or.inr ⟨hj'.symm, hcb⟩⟩)
      · exact Or.inr (Or.inr ⟨Or.inr ⟨hi', hi' ▸ hcb⟩, Or.inr ⟨hj'.symm, hca⟩⟩)
      · exact Or.inl (Or.inr ⟨hi'.trans hj'.symm, hi' ▸ hcb⟩)
  · -- two_ends
    intro i hi
    by_cases him : (if s.connected_component i = s.connected_component b
        then s.connected_component a else s.connected_component i) = s.connected_component a
    · have hFa := hb.two_ends a hca
      have hFb := hb.two_ends b hcb
      have haF : a ∈ Finset.univ.filter (fun j =>
          s.connected_component j = s.connected_component a ∧ s.node_degrees j = 1) := by
        simp [hdega1]
      have hbF : b ∈ Finset.univ.filter (fun j =>
          s.connected_component j = s.connected_component b ∧ s.node_degrees j = 1) := by
        simp [hdegb1]
      have hfilter : (Finset.univ.filter fun j =>
          (if s.connected_component j = s.connected_component b then s.connected_component a
            else s.connected_component j) =
          (if s.connected_component i = s.connected_component b then s.connected_component a
            else s.connected_component i) ∧
          (afterBumps s a b).node_degrees j = 1) =
          ((Finset.univ.filter (fun j =>
            s.connected_component j = s.connected_component a ∧ s.node_degrees j = 1)).erase a) ∪
          ((Finset.univ.filter (fun j =>
            s.connected_component j = s.connected_component b ∧ s.node_degrees j = 1)).erase b) := by
        ext j
        simp only [Finset.mem_filter, Finset.mem_univ, true_and, Finset.mem_union,
          Finset.mem_erase]
        rw [him, afterBumps_deg]
        by_cases hja : j = a
        · subst hja
          rw [if_pos (Or.inl rfl)]
          constructor
          · rintro ⟨-, hd⟩
            omega
          · rintro (⟨h, -⟩ | ⟨-, h, -⟩)
            · exact absurd rfl h
            · exact absurd h hLne
        · by_cases hjb : j = b
          · subst hjb
            rw [if_pos (Or.inr rfl)]
            constructor
            · rintro ⟨-, hd⟩
              omega
            · rintro (⟨-, h, -⟩ | ⟨h, -⟩)
              · exact absurd h.symm hLne
              · exact absurd rfl h
          · rw [if_neg (show ¬(j = a ∨ j = b) by tauto)]
            rw [hM j]
            constructor
            · rintro ⟨(h1 | h1), h2⟩
              · exact Or.inl ⟨hja, h1, h2⟩
              · exact Or.inr ⟨hjb, h1, h2⟩
            · rintro (⟨-, h1, h2⟩ | ⟨-, h1, h2⟩)
              · exact ⟨Or.inl h1, h2⟩
              · exact ⟨Or.inr h1, h2⟩
      show (Finset.univ.filter fun j =>
          (if s.connected_component j = s.connected_component b then s.connected_component a
            else s.connected_component j) =
          (if s.connected_component i = s.connected_component b then s.connected_component a
            else s.connected_component i) ∧
          (afterBumps s a b).node_degrees j = 1).card = 2
      rw [hfilter, Finset.card_union_of_disjoint, Finset.card_erase_of_mem haF,
        Finset.card_erase_of_mem hbF, hFa, hFb]
      rw [Finset.disjoint_left]
      intro x hx1 hx2
      rw [Finset.mem_erase, Finset.mem_filter] at hx1 hx2
      exact hLne (hx1.2.2.1.symm.trans hx2.2.2.1)
    · have hiLb : s.connected_component i ≠ s.connected_component b := by
        intro h
        exact him (by rw [if_pos h])
      have hiLa : s.connected_component i ≠ s.connected_component a := by
        intro h
        exact him (by rw [if_neg hiLb]; exact h)
      have hi' : s.connected_component i ≠ -1 := by
        intro h
        apply hi
        show (if s.connected_component i = s.connected_component b then s.connected_component a
          else s.connected_component i) = -1
        rw [if_neg hiLb]
        exact h
      have hfilter : (Finset.univ.filter fun j =>
          (if s.connected_component j = s.connected_component b then s.connected_component a
            else s.connected_component j) =
          (if s.connected_component i = s.connected_component b then s.connected_component a
            else s.connected_component i) ∧
          (afterBumps s a b).node_degrees j = 1) =
          Finset.univ.filter (fun j =>
            s.connected_component j = s.connected_component i ∧ s.node_degrees j = 1) := by
        ext j
        simp only [Finset.mem_filter, Finset.mem_univ, true_and]
        rw [if_neg hiLb, afterBumps_deg]
        by_cases hjLb : s.connected_component j = s.connected_component b
        · rw [if_pos hjLb]
          constructor
          · rintro ⟨h1, -⟩
            exact absurd h1.symm hiLa
          · rintro ⟨h1, -⟩
            exact absurd (h1.symm.trans hjLb) hiLb
        · rw [if_neg hjLb]
          by_cases hja : j = a
          · subst hja
            constructor
            · rintro ⟨h1, -⟩
              exact absurd h1.symm hiLa
            · rintro ⟨h1, -⟩
              exact absurd h1.symm hiLa
          · by_cases hjb : j = b
            · subst hjb
              exact absurd rfl hjLb
            · rw [if_neg (by tauto)]
      show (Finset.univ.filter fun j =>
          (if s.connected_component j = s.connected_component b then s.connected_component a
            else s.connected_component j) =
          (if s.connected_component i = s.connected_component b then s.connected_component a
            else s.connected_component i) ∧
          (afterBumps s a b).node_degrees j = 1).card = 2
      rw [hfilter]
      exact hb.two_ends i hi'

end TopicSort

namespace TopicSort

variable {n : Nat}

theorem ite_false_subset {c : Prop} [Decidable c] {x : Bool}
    (h : (if c then false else x) = true) : x = true := by
  by_cases hc : c
  · rw [if_pos hc] at h
    cases h
  · rwa [if_neg hc] at h

theorem afterBumps_feas_subset {s : OrderState n} {a b : Fin n} {i j : Fin n}
    (h : (afterBumps s a b).feasible_edges i j = true) :
    s.feasible_edges i j = true ∧ ¬(i = a ∧ j = b) := by
  rw [afterBumps_feas_eq] at h
  by_cases hc : (i = a ∧ j = b) ∨ ((i = a ∨ j = a) ∧ s.node_degrees a + 1 = 2) ∨
      ((i = b ∨ j = b) ∧ s.node_degrees b + 1 = 2)
  · rw [if_pos hc] at h
    cases h
  · rw [if_neg hc] at h
    exact ⟨h, fun hab => hc (Or.inl hab)⟩

theorem two_ends_exists {s : OrderState n} (hb : BuildingCore s) {x : Fin n}
    (hx : s.connected_component x ≠ -1) :
    ∃ y, s.connected_component y = s.connected_component x ∧ s.node_degrees y = 1 := by
  have hcard := hb.two_ends x hx
  have hpos : 0 < (Finset.univ.filter fun j =>
      s.connected_component j = s.connected_component x ∧ s.node_degrees j = 1).card := by
    rw [hcard]
    omega
  obtain ⟨y, hy⟩ := Finset.card_pos.1 hpos
  rw [Finset.mem_filter] at hy
  exact ⟨y, hy.2.1, hy.2.2⟩

theorem two_ends_other {s : OrderState n} (hb : BuildingCore s) {x : Fin n}
    (hx : s.connected_component x ≠ -1) :
    ∃ y, y ≠ x ∧ s.connected_component y = s.connected_component x ∧
      s.node_degrees y = 1 := by
  have hcard := hb.two_ends x hx
  obtain ⟨y, hy, hyx⟩ := Finset.exists_ne_of_one_lt_card (by rw [hcard]; omega) x
  rw [Finset.mem_filter] at hy
  exact ⟨y, hyx, hy.2.1, hy.2.2⟩

end TopicSort

namespace TopicSort

variable {n : Nat}

/-- Full description of a successful base `add_edge` call from a building
state: for `n = 2` the single edge completes the engine through the early
return, otherwise the state stays in the building phase. -/
theorem base_step_building {s : OrderState n} (hn : 2 ≤ n)
    (hc : CommonInv s) (hb : BuildingCore s) {na nb a b : Fin n}
    (hab : sortPair na nb = (a, b)) (hf : s.feasible_edges a b = true) :
    ∃ r, OrderSolution.add_edge s na nb = .ok r ∧
      r.edges_added = (fun i j => if i = a ∧ j = b then true else s.edges_added i j) ∧
      r.node_degrees =
        (fun x => if x = a ∨ x = b then s.node_degrees x + 1 else s.node_degrees x) ∧
      (∀ i j, r.feasible_edges i j = true →
        s.feasible_edges i j = true ∧ ¬(i = a ∧ j = b)) ∧
      CommonInv r ∧ edgeCard r = edgeCard s + 1 ∧
      ((r.complete = false ∧ BuildingCore r ∧ 3 ≤ n) ∨
       (r.complete = true ∧ DoneTwoInv r)) := by
  obtain ⟨hab', h2a, h2b, hnsc, hda, hdb⟩ := building_feas_facts hc hb hf
  have hne : a ≠ b := fin_ne_of_val_lt hab'
  obtain ⟨hcT, hcardT⟩ := common_afterBumps hc hab' h2a h2b hda hdb
  rw [add_edge_run hab hf hda hne h2a h2b]
  by_cases hany : (afterBumps s a b).anyFeasible = false
  · -- the feasible set emptied inside the bump loop: early return, n = 2
    rw [if_pos hany]
    have hT0 : ∀ i j, (afterBumps s a b).feasible_edges i j = false :=
      (anyFeasible_eq_false_iff _).1 hany
    have hpair : ∀ x y : Fin n, x ≠ y → (afterBumps s a b).node_degrees x < 2 →
        (afterBumps s a b).node_degrees y < 2 → ¬ sameComp s x y →
        ¬(x = a ∧ y = b) → ¬(y = a ∧ x = b) → False := by
      intro x y hxy hdx hdy hsxy hnab1 hnab2
      rcases Nat.lt_or_ge (x : Nat) (y : Nat) with hlt | hge
      · have hfe := (afterBumps_feas_char hb.feas_char x y).2 ⟨hlt, hdx, hdy, hsxy, hnab1⟩
        simp [hT0 x y] at hfe
      · have hlt : (y : Nat) < x := by
          rcases Nat.lt_or_ge (y : Nat) (x : Nat) with h | h
          · exact h
          · exact absurd (Fin.ext (le_antisymm h hge)) hxy
        have hfe := (afterBumps_feas_char hb.feas_char y x).2
          ⟨hlt, hdy, hdx, fun h => hsxy (sameComp_symm h), hnab2⟩
        simp [hT0 y x] at hfe
    by_cases hcam : s.connected_component a = -1 <;>
      by_cases hcbm : s.connected_component b = -1
    · -- both endpoints fresh: the graph was empty, n = 2
      have hdega0 : s.node_degrees a = 0 := (hb.cc_deg a).1 hcam
      have hdegb0 : s.node_degrees b = 0 := (hb.cc_deg b).1 hcbm
      have hta : (afterBumps s a b).node_degrees a < 2 := by
        rw [afterBumps_deg, if_pos (Or.inl rfl)]
        omega
      have huniv : ∀ x : Fin n, x = a ∨ x = b := by
        intro x
        by_contra hx
        push_neg at hx
        obtain ⟨hxa, hxb⟩ := hx
        by_cases hcx : s.connected_component x = -1
        · have hdx : (afterBumps s a b).node_degrees x < 2 := by
            rw [afterBumps_deg, if_neg (by tauto)]
            have := (hb.cc_deg x).1 hcx
            omega
          exact hpair x a hxa hdx hta (fun h => h.2 hcx)
            (fun h => hxa h.1) (fun h => hxb h.2)
        · obtain ⟨y, hy1, hy2⟩ := two_ends_exists hb hcx
          have hyne : s.connected_component y ≠ -1 := by
            rw [hy1]
            exact hcx
          have hya : y ≠ a := by
            intro h
            rw [h] at hyne
            exact hyne hcam
          have hyb : y ≠ b := by
            intro h
            rw [h] at hyne
            exact hyne hcbm
          have hdy : (afterBumps s a b).node_degrees y < 2 := by
            rw [afterBumps_deg, if_neg (by tauto)]
            omega
          exact hpair y a hya hdy hta (fun h => h.2 (h.1.trans hcam))
            (fun h => hya h.1) (fun h => hyb h.2)
      have hn2 : n = 2 := by
        have hsub : (Finset.univ : Finset (Fin n)) ⊆ {a, b} := by
          intro x _
          rcases huniv x with rfl | rfl
          · simp
          · simp
        have hcard := Finset.card_le_card hsub
        rw [Finset.card_univ, Fintype.card_fin] at hcard
        have hle : ({a, b} : Finset (Fin n)).card ≤ 2 := Finset.card_insert_le _ _ |>.trans
          (by simp)
        omega
      have hnoedge : ∀ i j, s.edges_added i j = false := by
        intro i j
        have h0 : degCount s i = 0 := by
          rw [← hc.deg_eq]
          rcases huniv i with rfl | rfl
          · exact hdega0
          · exact hdegb0
        exact (degCount_eq_zero_iff.1 h0 j).1
      refine ⟨_, rfl, rfl, rfl, ?_, ⟨hcT.edges_lt, hcT.feas_lt, hcT.deg_eq, hcT.deg_le,
        hcT.deg_sum⟩, hcardT, Or.inr ⟨rfl, ?_, rfl, hT0, ?_, ?_, ?_⟩⟩
      · intro i j h
        rw [hT0 i j] at h
        cases h
      · exact hn2
      · intro i j
        show (if i = a ∧ j = b then true else s.edges_added i j) = true ↔ _
        by_cases hij : i = a ∧ j = b
        · rw [if_pos hij, hij.1, hij.2]
          simp [hab']
        · rw [if_neg hij, hnoedge i j]
          simp only [Bool.false_eq_true, false_iff]
          intro hlt
          rcases huniv i with rfl | rfl <;> rcases huniv j with rfl | rfl
          · omega
          · exact hij ⟨rfl, rfl⟩
          · omega
          · omega
      · intro i
        show (if i = a ∨ i = b then s.node_degrees i + 1 else s.node_degrees i) = 1
        rw [if_pos (huniv i)]
        rcases huniv i with rfl | rfl
        · omega
        · omega
      · intro i
        show s.connected_component i = -1
        rcases huniv i with rfl | rfl
        · exact hcam
        · exact hcbm
    · -- a fresh, b assigned: impossible here
      exfalso
      have hdega0 : s.node_degrees a = 0 := (hb.cc_deg a).1 hcam
      obtain ⟨y, hyb, hy1, hy2⟩ := two_ends_other hb hcbm
      have hyne : s.connected_component y ≠ -1 := by
        rw [hy1]
        exact hcbm
      have hya : y ≠ a := by
        intro h
        rw [h] at hyne
        exact hyne hcam
      have hta : (afterBumps s a b).node_degrees a < 2 := by
        rw [afterBumps_deg, if_pos (Or.inl rfl)]
        omega
      have hdy : (afterBumps s a b).node_degrees y < 2 := by
        rw [afterBumps_deg, if_neg (by tauto)]
        omega
      exact hpair a y (Ne.symm hya) hta hdy (fun h => h.2 hcam)
        (fun h => hyb h.2) (fun h => hya h.1)
    · -- a assigned, b fresh: impossible here
      exfalso
      have hdegb0 : s.node_degrees b = 0 := (hb.cc_deg b).1 hcbm
      obtain ⟨y, hya, hy1, hy2⟩ := two_ends_other hb hcam
      have hyne : s.connected_component y ≠ -1 := by
        rw [hy1]
        exact hcam
      have hyb : y ≠ b := by
        intro h
        rw [h] at hyne
        exact hyne hcbm
      have htb : (afterBumps s a b).node_degrees b < 2 := by
        rw [afterBumps_deg, if_pos (Or.inr rfl)]
        omega
      have hdy : (afterBumps s a b).node_degrees y < 2 := by
        rw [afterBumps_deg, if_neg (by tauto)]
        omega
      exact hpair y b hyb hdy htb (fun h => h.2 (h.1.trans hcbm))
        (fun h => hya h.1) (fun h => hne h.1.symm)
    · -- both assigned: impossible here
      exfalso
      have hLne : s.connected_component a ≠ s.connected_component b := by
        intro h
        exact hnsc ⟨h, hcam⟩
      obtain ⟨ya, hyaa, hya1, hya2⟩ := two_ends_other hb hcam
      obtain ⟨yb, hybb, hyb1, hyb2⟩ := two_ends_other hb hcbm
      have hyab : ya ≠ b := by
        intro h
        rw [h] at hya1
        exact hLne hya1.symm
      have hyba : yb ≠ a := by
        intro h
        rw [h] at hyb1
        exact hLne hyb1
      have hdya : (afterBumps s a b).node_degrees ya < 2 := by
        rw [afterBumps_deg, if_neg (by tauto)]
        omega
      have hdyb : (afterBumps s a b).node_degrees yb < 2 := by
        rw [afterBumps_deg, if_neg (by tauto)]
        omega
      have hyayb : ya ≠ yb := by
        intro h
        rw [h, hyb1] at hya1
        exact hLne hya1.symm
      exact hpair ya yb hyayb hdya hdyb
        (fun h => hLne ((hya1.symm.trans h.1).trans hyb1))
        (fun h => hyaa h.1) (fun h => hyba h.1)
  · -- the feasible set survived the bumps: connectivity update runs
    rw [if_neg hany]
    have hanyT : (afterBumps s a b).anyFeasible = true := by
      rcases Bool.eq_false_or_eq_true ((afterBumps s a b).anyFeasible) with h | h
      · exact h
      · exact absurd h hany
    have h3 : 3 ≤ n := by
      by_contra h3
      have hn2 : n = 2 := by omega
      obtain ⟨x, y, hxy⟩ := (anyFeasible_eq_true_iff _).1 hanyT
      obtain ⟨hlt, -, -, -, hnxy⟩ := (afterBumps_feas_char hb.feas_char x y).1 hxy
      apply hnxy
      subst hn2
      have hx2 := x.isLt
      have hy2 := y.isLt
      have ha2 := a.isLt
      have hb2 := b.isLt
      constructor
      · exact Fin.ext (by omega)
      · exact Fin.ext (by omega)
    by_cases hcam : s.connected_component a = -1 <;>
      by_cases hcbm : s.connected_component b = -1
    · -- fresh-fresh branch
      simp only [updateComponents_fresh (s := afterBumps s a b) hcam hcbm]
      have hcore := branch_fresh_core hc hb hf hcam hcbm
      have hcommon : CommonInv { afterBumps s a b with connected_component := fun i =>
          if i = a ∨ i = b then ((a : Nat) : Int) else s.connected_component i } :=
        ⟨hcT.edges_lt, hcT.feas_lt, hcT.deg_eq, hcT.deg_le, hcT.deg_sum⟩
      have hval : (OrderState.ensureValidityB
          { edges_added := (afterBumps s a b).edges_added
            node_degrees := (afterBumps s a b).node_degrees
            connected_component := fun i =>
              if i = a ∨ i = b then ((a : Nat) : Int)
              else (afterBumps s a b).connected_component i
            feasible_edges := (afterBumps s a b).feasible_edges
            complete := (afterBumps s a b).complete }) = true :=
        (ensureValidityB_eq_true_iff _).2 hcT.edges_lt
      rw [if_pos hval]
      exact ⟨_, rfl, rfl, rfl,
        fun i j h => afterBumps_feas_subset h,
        hcommon, hcardT, Or.inl ⟨hb.not_complete, hcore, h3⟩⟩
    · -- absorb a into b's component
      simp only [updateComponents_absorb_left (s := afterBumps s a b) hcam hcbm]
      have hcore := branch_absorb_left_core hc hb hf hcam hcbm
      have hcommon : CommonInv { afterBumps s a b with
          connected_component :=
            Function.update s.connected_component a (s.connected_component b)
          feasible_edges := fun i j =>
            if (i = a ∧ Function.update s.connected_component a (s.connected_component b) j =
                  s.connected_component b) ∨
               (Function.update s.connected_component a (s.connected_component b) i =
                  s.connected_component b ∧ j = a)
            then false else (afterBumps s a b).feasible_edges i j } :=
        ⟨hcT.edges_lt, fun i j h => hcT.feas_lt i j (ite_false_subset h),
          hcT.deg_eq, hcT.deg_le, hcT.deg_sum⟩
      have hval : (OrderState.ensureValidityB
          { edges_added := (afterBumps s a b).edges_added
            node_degrees := (afterBumps s a b).node_degrees
            connected_component := Function.update (afterBumps s a b).connected_component a
              ((afterBumps s a b).connected_component b)
            feasible_edges := fun i j =>
              if (i = a ∧ Function.update (afterBumps s a b).connected_component a
                    ((afterBumps s a b).connected_component b) j =
                    (afterBumps s a b).connected_component b) ∨
                 (Function.update (afterBumps s a b).connected_component a
                    ((afterBumps s a b).connected_component b) i =
                    (afterBumps s a b).connected_component b ∧ j = a)
              then false else (afterBumps s a b).feasible_edges i j
            complete := (afterBumps s a b).complete }) = true :=
        (ensureValidityB_eq_true_iff _).2 hcT.edges_lt
      rw [if_pos hval]
      exact ⟨_, rfl, rfl, rfl,
        fun i j h => afterBumps_feas_subset (ite_false_subset h),
        hcommon, hcardT, Or.inl ⟨hb.not_complete, hcore, h3⟩⟩
    · -- absorb b into a's component
      simp only [updateComponents_absorb_right (s := afterBumps s a b) hcam hcbm]
      have hcore := branch_absorb_right_core hc hb hf hcam hcbm
      have hcommon : CommonInv { afterBumps s a b with
          connected_component :=
            Function.update s.connected_component b (s.connected_component a)
          feasible_edges := fun i j =>
            if (i = b ∧ Function.update s.connected_component b (s.connected_component a) j =
                  s.connected_component a) ∨
               (Function.update s.connected_component b (s.connected_component a) i =
                  s.connected_component a ∧ j = b)
            then false else (afterBumps s a b).feasible_edges i j } :=
        ⟨hcT.edges_lt, fun i j h => hcT.feas_lt i j (ite_false_subset h),
          hcT.deg_eq, hcT.deg_le, hcT.deg_sum⟩
      have hval : (OrderState.ensureValidityB
          { edges_added := (afterBumps s a b).edges_added
            node_degrees := (afterBumps s a b).node_degrees
            connected_component := Function.update (afterBumps s a b).connected_component b
              ((afterBumps s a b).connected_component a)
            feasible_edges := fun i j =>
              if (i = b ∧ Function.update (afterBumps s a b).connected_component b
                    ((afterBumps s a b).connected_component a) j =
                    (afterBumps s a b).connected_component a) ∨
                 (Function.update (afterBumps s a b).connected_component b
                    ((afterBumps s a b).connected_component a) i =
                    (afterBumps s a b).connected_component a ∧ j = b)
              then false else (afterBumps s a b).feasible_edges i j
            complete := (afterBumps s a b).complete }) = true :=
        (ensureValidityB_eq_true_iff _).2 hcT.edges_lt
      rw [if_pos hval]
      exact ⟨_, rfl, rfl, rfl,
        fun i j h => afterBumps_feas_subset (ite_false_subset h),
        hcommon, hcardT, Or.inl ⟨hb.not_complete, hcore, h3⟩⟩
    · -- merge two assigned components
      have hccne : s.connected_component a ≠ s.connected_component b := by
        intro h
        exact hnsc ⟨h, hcam⟩
      simp only [updateComponents_merge (s := afterBumps s a b) hcam hcbm hccne]
      have hcore := branch_merge_core hc hb hf hcam hcbm
      have hcommon : CommonInv { afterBumps s a b with
          connected_component := fun i =>
            if s.connected_component i = s.connected_component b then s.connected_component a
            else s.connected_component i
          feasible_edges := fun i j =>
            if (if s.connected_component i = s.connected_component b
                then s.connected_component a else s.connected_component i) =
                  s.connected_component a ∧
               (if s.connected_component j = s.connected_component b
                then s.connected_component a else s.connected_component j) =
                  s.connected_component a
            then false else (afterBumps s a b).feasible_edges i j } :=
        ⟨hcT.edges_lt, fun i j h => hcT.feas_lt i j (ite_false_subset h),
          hcT.deg_eq, hcT.deg_le, hcT.deg_sum⟩
      have hval : (OrderState.ensureValidityB
          { edges_added := (afterBumps s a b).edges_added
            node_degrees := (afterBumps s a b).node_degrees
            connected_component := fun i =>
              if (afterBumps s a b).connected_component i =
                  (afterBumps s a b).connected_component b
              then (afterBumps s a b).connected_component a
              else (afterBumps s a b).connected_component i
            feasible_edges := fun i j =>
              if (if (afterBumps s a b).connected_component i =
                      (afterBumps s a b).connected_component b
                  then (afterBumps s a b).connected_component a
                  else (afterBumps s a b).connected_component i) =
                    (afterBumps s a b).connected_component a ∧
                 (if (afterBumps s a b).connected_component j =
                      (afterBumps s a b).connected_component b
                  then (afterBumps s a b).connected_component a
                  else (afterBumps s a b).connected_component j) =
                    (afterBumps s a b).connected_component a
              then false else (afterBumps s a b).feasible_edges i j
            complete := (afterBumps s a b).complete }) = true :=
        (ensureValidityB_eq_true_iff _).2 hcT.edges_lt
      rw [if_pos hval]
      exact ⟨_, rfl, rfl, rfl,
        fun i j h => afterBumps_feas_subset (ite_false_subset h),
        hcommon, hcardT, Or.inl ⟨hb.not_complete, hcore, h3⟩⟩

end TopicSort

namespace TopicSort

variable {n : Nat}

/-- In a building state whose feasible set is empty, the structure is a
single spanning component with exactly two degree-1 endpoints, all other
nodes of degree 2, and `n - 1` committed edges (a Hamiltonian path). -/
theorem building_no_feas_structure {r : OrderState n} (hn : 2 ≤ n)
    (hc : CommonInv r) (hb : BuildingCore r)
    (h0 : ∀ i j, r.feasible_edges i j = false) :
    (∀ x y, r.connected_component x = r.connected_component y) ∧
    (∀ x, r.connected_component x ≠ -1) ∧
    (Finset.univ.filter fun i => r.node_degrees i = 1).card = 2 ∧
    (∀ x, r.node_degrees x = 1 ∨ r.node_degrees x = 2) ∧
    edgeCard r = n - 1 ∧
    (∀ x y, Connected r x y) := by
  have hsc : ∀ x y : Fin n, x ≠ y → sameComp r x y := by
    intro x y hxy
    by_contra hns
    have hend : ∀ z : Fin n, ∃ z', r.node_degrees z' < 2 ∧
        (z' = z ∨ sameComp r z' z) := by
      intro z
      by_cases hz : r.connected_component z = -1
      · refine ⟨z, ?_, Or.inl rfl⟩
        have := (hb.cc_deg z).1 hz
        omega
      · obtain ⟨z', hz1, hz2⟩ := two_ends_exists hb hz
        refine ⟨z', by omega, Or.inr ⟨hz1, ?_⟩⟩
        rw [hz1]
        exact hz
    obtain ⟨x', hdx, hx⟩ := hend x
    obtain ⟨y', hdy, hy⟩ := hend y
    have hsame : ∀ {p q p' q' : Fin n}, (p' = p ∨ sameComp r p' p) →
        (q' = q ∨ sameComp r q' q) → sameComp r p' q' → sameComp r p q := by
      rintro p q p' q' (rfl | hp) (rfl | hq) hpq
      · exact hpq
      · exact ⟨hpq.1.trans hq.1, hpq.2⟩
      · exact ⟨hp.1.symm.trans hpq.1, hp.1 ▸ hp.2⟩
      · exact ⟨(hp.1.symm.trans hpq.1).trans hq.1, hp.1 ▸ hp.2⟩
    have hxy' : x' ≠ y' := by
      intro h
      subst h
      rcases hx with rfl | hp
      · rcases hy with rfl | hq
        · exact hxy rfl
        · exact hns ⟨hq.1, hq.1 ▸ hq.2⟩
      · rcases hy with rfl | hq
        · exact hns ⟨hp.1.symm, (hp.1.symm ▸ hp.2 : _)⟩
        · exact hns (hsame (Or.inr hp) (Or.inr hq) ⟨rfl, hp.2⟩)
    have hns' : ¬ sameComp r x' y' := fun h => hns (hsame hx hy h)
    rcases Nat.lt_or_ge (x' : Nat) (y' : Nat) with hlt | hge
    · have := (hb.feas_char x' y').2 ⟨hlt, hdx, hdy, hns'⟩
      simp [h0 x' y'] at this
    · have hlt : (y' : Nat) < x' := by
        rcases Nat.lt_or_ge (y' : Nat) (x' : Nat) with h | h
        · exact h
        · exact absurd (Fin.ext (le_antisymm h hge)) hxy'
      have := (hb.feas_char y' x').2
        ⟨hlt, hdy, hdx, fun h => hns' (sameComp_symm h)⟩
      simp [h0 y' x'] at this
  have hcc_same : ∀ x y, r.connected_component x = r.connected_component y := by
    intro x y
    by_cases hxy : x = y
    · rw [hxy]
    · exact (hsc x y hxy).1
  have hassigned : ∀ x, r.connected_component x ≠ -1 := by
    intro x
    obtain ⟨y, -, hyx⟩ := Finset.exists_ne_of_one_lt_card
      (by rw [Finset.card_univ, Fintype.card_fin]; omega) x
    exact (hsc x y (Ne.symm hyx)).2
  have hx0 : (0 : Nat) < n := by omega
  have hcard1 : (Finset.univ.filter fun i => r.node_degrees i = 1).card = 2 := by
    have h2e := hb.two_ends ⟨0, hx0⟩ (hassigned _)
    rw [← h2e]
    congr 1
    apply Finset.filter_congr
    intro j _
    simp [hcc_same j ⟨0, hx0⟩]
  have hdeg12 : ∀ x, r.node_degrees x = 1 ∨ r.node_degrees x = 2 := by
    intro x
    have h1 := hc.deg_le x
    have h2 : r.node_degrees x ≠ 0 := by
      intro h
      exact hassigned x ((hb.cc_deg x).2 h)
    omega
  have hcard2 : (Finset.univ.filter fun i => r.node_degrees i = 2).card = n - 2 := by
    have hpart : (Finset.univ.filter fun i => r.node_degrees i = 1).card +
        (Finset.univ.filter fun i => ¬ r.node_degrees i = 1).card = n := by
      rw [Finset.filter_card_add_filter_neg_card_eq_card, Finset.card_univ, Fintype.card_fin]
    have hcongr : (Finset.univ.filter fun i => ¬ r.node_degrees i = 1) =
        (Finset.univ.filter fun i => r.node_degrees i = 2) := by
      apply Finset.filter_congr
      intro j _
      rcases hdeg12 j with h | h <;> simp [h]
    rw [hcongr, hcard1] at hpart
    omega
  have hsum : edgeCard r = n - 1 := by
    have h1 : (∑ i, r.node_degrees i) = 2 * edgeCard r := hc.deg_sum
    have h2 : (∑ i, r.node_degrees i) =
        (∑ i ∈ Finset.univ.filter (fun i => r.node_degrees i = 1), r.node_degrees i) +
        (∑ i ∈ Finset.univ.filter (fun i => ¬ r.node_degrees i = 1), r.node_degrees i) :=
      (Finset.sum_filter_add_sum_filter_not _ _ _).symm
    have h3 : (∑ i ∈ Finset.univ.filter (fun i => r.node_degrees i = 1),
        r.node_degrees i) = 2 := by
      rw [Finset.sum_congr rfl (fun i hi => (Finset.mem_filter.1 hi).2), Finset.sum_const,
        hcard1, smul_eq_mul]
    have hcongr : (Finset.univ.filter fun i => ¬ r.node_degrees i = 1) =
        (Finset.univ.filter fun i => r.node_degrees i = 2) := by
      apply Finset.filter_congr
      intro j _
      rcases hdeg12 j with h | h <;> simp [h]
    have h4 : (∑ i ∈ Finset.univ.filter (fun i => ¬ r.node_degrees i = 1),
        r.node_degrees i) = 2 * (n - 2) := by
      rw [hcongr, Finset.sum_congr rfl (fun i hi => (Finset.mem_filter.1 hi).2),
        Finset.sum_const, hcard2, smul_eq_mul]
      ring
    rw [h2, h3, h4] at h1
    omega
  refine ⟨hcc_same, hassigned, hcard1, hdeg12, hsum, ?_⟩
  intro x y
  by_cases hxy : x = y
  · subst hxy
    exact Relation.ReflTransGen.refl
  · exact (hb.label_conn x y).2 (Or.inr (hsc x y hxy))

/-- Two adjacent degree-1 nodes form a connected component of their own. -/
theorem pair_component {s : OrderState n} (hc : CommonInv s) {u w : Fin n}
    (hadj : adjacent s u w) (hdu : s.node_degrees u = 1) (hdw : s.node_degrees w = 1) :
    ∀ x, Connected s u x → x = u ∨ x = w := by
  have huniq : ∀ {p q z : Fin n}, s.node_degrees p = 1 → adjacent s p q →
      adjacent s p z → z = q := by
    intro p q z hp hpq hpz
    have hcard : (Finset.univ.filter fun j => adjacent s p j).card = 1 := by
      have h := hc.deg_eq p
      rw [hp] at h
      exact h.symm
    obtain ⟨c, hcs⟩ := Finset.card_eq_one.1 hcard
    have hq : q ∈ Finset.univ.filter fun j => adjacent s p j := by
      simp only [Finset.mem_filter, Finset.mem_univ, true_and]
      exact hpq
    have hz : z ∈ Finset.univ.filter fun j => adjacent s p j := by
      simp only [Finset.mem_filter, Finset.mem_univ, true_and]
      exact hpz
    rw [hcs, Finset.mem_singleton] at hq hz
    rw [hz, hq]
  intro x hx
  induction hx with
  | refl => exact Or.inl rfl
  | tail hconn hadj2 ih =>
    rcases ih with rfl | rfl
    · exact Or.inr (huniq hdu hadj hadj2)
    · exact Or.inl (huniq hdw (adjacent_symm hadj) hadj2)

end TopicSort

namespace TopicSort

variable {n : Nat}

/-- The base `add_edge` on an infeasible (sorted) pair fails immediately,
leaving the state untouched. -/
theorem add_edge_infeasible {s : OrderState n} {na nb a b : Fin n}
    (hab : sortPair na nb = (a, b)) (hf : s.feasible_edges a b = false) :
    OrderSolution.add_edge s na nb = .error (.infeasibleEdge, s) := by
  unfold OrderSolution.add_edge
  simp only [hab]
  rw [if_neg (by simp [hf])]

theorem degreeOneNodes_length (s : OrderState n) :
    (degreeOneNodes s).length =
      (Finset.univ.filter fun i => s.node_degrees i = 1).card := by
  unfold degreeOneNodes
  rw [Finset.card_filter, Fin.sum_univ_def]
  induction List.finRange n with
  | nil => rfl
  | cons x xs ih =>
    by_cases hx : s.node_degrees x = 1 <;>
      simp [List.filter_cons, hx, ih] <;> omega

theorem degreeOneNodes_mem (s : OrderState n) (x : Fin n) :
    x ∈ degreeOneNodes s ↔ s.node_degrees x = 1 := by
  unfold degreeOneNodes
  rw [List.mem_filter]
  simp [List.mem_finRange]

theorem degreeOneNodes_sorted (s : OrderState n) :
    (degreeOneNodes s).Pairwise (· < ·) :=
  (List.pairwise_lt_finRange n).filter _

/-- A base `add_edge` call in the closing phase commits the loop-closing
edge and completes the cycle through the early return. -/
theorem base_step_closing {s : OrderState n}
    (hc : CommonInv s) (hcl : ClosingInv s) {na nb a b : Fin n}
    (hab : sortPair na nb = (a, b)) (hf : s.feasible_edges a b = true) :
    ∃ r, OrderSolution.add_edge s na nb = .ok r ∧ r.complete = true ∧
      CommonInv r ∧ DoneCycleInv r ∧ r.edges_added a b = true ∧
      (∀ i j, r.feasible_edges i j = false) := by
  obtain ⟨u, v, huv, hdu, hdv, hnadd, hfeq, hrest⟩ := hcl.ends
  obtain ⟨rfl, rfl⟩ := (hfeq a b).1 hf
  have hne : a ≠ b := fin_ne_of_val_lt huv
  have hvu : s.edges_added b a = false := by
    by_contra h
    rw [Bool.not_eq_false] at h
    have := hc.edges_lt b a h
    omega
  have h2u : s.node_degrees a < 2 := by omega
  have h2v : s.node_degrees b < 2 := by omega
  obtain ⟨hcT, hcardT⟩ := common_afterBumps hc huv h2u h2v hnadd hvu
  rw [add_edge_run hab hf hnadd hne h2u h2v]
  have hany : (afterBumps s a b).anyFeasible = false := by
    rw [anyFeasible_eq_false_iff]
    intro i j
    rw [afterBumps_feas_eq]
    by_cases hrem : (i = a ∧ j = b) ∨ ((i = a ∨ j = a) ∧ s.node_degrees a + 1 = 2) ∨
        ((i = b ∨ j = b) ∧ s.node_degrees b + 1 = 2)
    · rw [if_pos hrem]
    · rw [if_neg hrem]
      by_contra hcon
      rw [Bool.not_eq_false] at hcon
      obtain ⟨rfl, rfl⟩ := (hfeq i j).1 hcon
      exact hrem (Or.inl ⟨rfl, rfl⟩)
  rw [if_pos hany]
  have hT0 : ∀ i j, (afterBumps s a b).feasible_edges i j = false :=
    (anyFeasible_eq_false_iff _).1 hany
  refine ⟨_, rfl, rfl, ⟨hcT.edges_lt, hcT.feas_lt, hcT.deg_eq, hcT.deg_le, hcT.deg_sum⟩,
    ⟨rfl, hT0, ?_, ?_, ?_, hcl.cc_same, hcl.cc_assigned⟩, ?_, hT0⟩
  · -- edge count
    show edgeCard (afterBumps s a b) = n
    rw [hcardT, hcl.edge_count]
    have := hcl.three_le
    omega
  · -- all degrees 2
    intro i
    show (if i = a ∨ i = b then s.node_degrees i + 1 else s.node_degrees i) = 2
    by_cases hi : i = a ∨ i = b
    · rw [if_pos hi]
      rcases hi with rfl | rfl <;> omega
    · rw [if_neg hi]
      push_neg at hi
      exact hrest i hi.1 hi.2
  · -- connectivity
    intro i j
    exact connected_mono (t := { afterBumps s a b with complete := true })
      (fun x y hxy => by
        show (if x = a ∧ y = b then true else s.edges_added x y) = true
        by_cases h : x = a ∧ y = b
        · rw [if_pos h]
        · rw [if_neg h]
          exact hxy) (hcl.all_conn i j)
  · -- committed
    show (if a = a ∧ b = b then true else s.edges_added a b) = true
    rw [if_pos ⟨rfl, rfl⟩]

end TopicSort

namespace TopicSort

variable {n : Nat}

theorem sortPair_of_le {a b : Fin n} (h : a ≤ b) : sortPair a b = (a, b) := if_pos h

theorem adjacent_congr {s t : OrderState n} (he : t.edges_added = s.edges_added)
    (i j : Fin n) : adjacent t i j ↔ adjacent s i j := by
  unfold adjacent
  rw [he]

theorem degCount_congr {s t : OrderState n} (he : t.edges_added = s.edges_added)
    (i : Fin n) : degCount t i = degCount s i := by
  unfold degCount
  congr 1
  apply Finset.filter_congr
  intro j _
  simp only [adjacent_congr he]

theorem edgeCard_congr {s t : OrderState n} (he : t.edges_added = s.edges_added) :
    edgeCard t = edgeCard s := by
  unfold edgeCard
  congr 1
  apply Finset.filter_congr
  intro p _
  rw [he]

theorem connected_congr {s t : OrderState n} (he : t.edges_added = s.edges_added)
    (i j : Fin n) : Connected t i j ↔ Connected s i j :=
  ⟨connected_mono (fun x y h => by rw [← he]; exact h),
   connected_mono (fun x y h => by rw [he]; exact h)⟩

theorem common_of_fields {s t : OrderState n} (he : t.edges_added = s.edges_added)
    (hd : t.node_degrees = s.node_degrees)
    (hfe : t.feasible_edges = s.feasible_edges) (hc : CommonInv s) : CommonInv t where
  edges_lt i j h := hc.edges_lt i j (by rw [← he]; exact h)
  feas_lt i j h := hc.feas_lt i j (by rw [← hfe]; exact h)
  deg_eq i := by rw [hd, degCount_congr he]; exact hc.deg_eq i
  deg_le i := by rw [hd]; exact hc.deg_le i
  deg_sum := by rw [hd, edgeCard_congr he]; exact hc.deg_sum

end TopicSort

namespace TopicSort

variable {n : Nat}

/-- The cycle wrapper propagates a base-step failure unchanged (the `if` of
tsp.py line 238 is never reached when the inherited call raised). -/
theorem tsp_wrapper_error {s : OrderState n} {na nb : Fin n}
    {e : AddEdgeError × OrderState n}
    (h : OrderSolution.add_edge s na nb = .error e) :
    TSPSolution.add_edge s na nb = .error e := by
  unfold TSPSolution.add_edge
  simp only [h]

/-- The path wrapper propagates a base-step failure unchanged. -/
theorem topic_wrapper_error {s : OrderState n} {na nb : Fin n}
    {e : AddEdgeError × OrderState n}
    (h : OrderSolution.add_edge s na nb = .error e) :
    TopicSortSolution.add_edge s na nb = .error e := by
  unfold TopicSortSolution.add_edge
  simp only [h]

/-- Either wrapper fails with `InfeasibleEdgeError`, leaving the state
untouched, when the sorted pair is not feasible. -/
theorem variantAdd_infeasible {v : Variant} {s : OrderState n} {na nb a b : Fin n}
    (hab : sortPair na nb = (a, b)) (hf : s.feasible_edges a b = false) :
    variantAdd v s na nb = .error (.infeasibleEdge, s) := by
  cases v
  · exact topic_wrapper_error (add_edge_infeasible hab hf)
  · exact tsp_wrapper_error (add_edge_infeasible hab hf)

/-- The cycle wrapper's value when the re-opening branch is skipped. -/
theorem tsp_wrapper_ok {s : OrderState n} {na nb : Fin n} {r1 : OrderState n}
    (hbase : OrderSolution.add_edge s na nb = .ok r1)
    (hno : ¬ (r1.complete = false ∧ r1.anyFeasible = false))
    (hval : r1.ensureValidityB = true) :
    TSPSolution.add_edge s na nb = .ok r1 := by
  unfold TSPSolution.add_edge
  simp only [hbase]
  rw [if_neg hno]
  show (if r1.ensureValidityB = true then (Except.ok r1 : AddResult n)
        else .error (.invariantViolation, r1)) = .ok r1
  rw [if_pos hval]

/-- The path wrapper's value when the feasible set is still inhabited. -/
theorem topic_wrapper_ok {s : OrderState n} {na nb : Fin n} {r1 : OrderState n}
    (hbase : OrderSolution.add_edge s na nb = .ok r1)
    (hany : r1.anyFeasible = true) (hval : r1.ensureValidityB = true) :
    TopicSortSolution.add_edge s na nb = .ok r1 := by
  unfold TopicSortSolution.add_edge
  simp only [hbase]
  rw [if_neg (by simp [hany]), if_pos hval]

/-- The path wrapper's value when the feasible set has emptied. -/
theorem topic_wrapper_finish {s : OrderState n} {na nb : Fin n} {r1 : OrderState n}
    (hbase : OrderSolution.add_edge s na nb = .ok r1)
    (hany : r1.anyFeasible = false) :
    TopicSortSolution.add_edge s na nb = .ok (TopicSortSolution.finish r1) := by
  unfold TopicSortSolution.add_edge
  simp only [hbase]
  rw [if_pos hany]

/-- The state after the cycle wrapper re-opens the loop-closing pair
(tsp.py line 242). -/
def reopen (s : OrderState n) (e1 e2 : Fin n) : OrderState n :=
  { s with feasible_edges := fun i j =>
      if i = e1 ∧ j = e2 then true else s.feasible_edges i j }

/-- The cycle wrapper's value on the re-opening branch. -/
theorem tsp_wrapper_reopen {s : OrderState n} {na nb : Fin n} {r1 : OrderState n}
    {e1 e2 : Fin n} (hbase : OrderSolution.add_edge s na nb = .ok r1)
    (hcomp : r1.complete = false) (hany : r1.anyFeasible = false)
    (hdeg : degreeOneNodes r1 = [e1, e2]) (hle : e1 ≤ e2)
    (hval : (reopen r1 e1 e2).ensureValidityB = true) :
    TSPSolution.add_edge s na nb = .ok (reopen r1 e1 e2) := by
  unfold TSPSolution.add_edge
  simp only [hbase]
  rw [if_pos ⟨hcomp, hany⟩]
  simp only [hdeg, sortPair_of_le hle]
  show (if (reopen r1 e1 e2).ensureValidityB = true then (Except.ok (reopen r1 e1 e2) : AddResult n)
        else .error (.invariantViolation, reopen r1 e1 e2)) = .ok (reopen r1 e1 e2)
  rw [if_pos hval]

/-- In any invariant state, a committed pair is never feasible (so re-adding
an edge trips the feasibility assert, not the duplicate assert). -/
theorem inv_committed_infeasible {v : Variant} {s : OrderState n} (hinv : Inv v s)
    {a b : Fin n} (hadd : s.edges_added a b = true) :
    s.feasible_edges a b = false := by
  obtain ⟨hc, hph⟩ := hinv
  have hab : (a : Nat) < b := hc.edges_lt a b hadd
  have hne : a ≠ b := fin_ne_of_val_lt hab
  rcases hph with ⟨hb, _⟩ | ⟨_, hcl⟩ | ⟨_, hd⟩ | ⟨_, hd⟩ | hd
  · by_contra h
    rw [Bool.not_eq_false] at h
    have hfacts := (hb.feas_char a b).1 h
    have hconn : Connected s a b := Relation.ReflTransGen.single (Or.inl hadd)
    rcases (hb.label_conn a b).1 hconn with heq | hsc
    · exact hne heq
    · exact hfacts.2.2.2 hsc
  · obtain ⟨u, v, huv, hdu, hdv, hnadd, hfeq, hrest⟩ := hcl.ends
    by_contra h
    rw [Bool.not_eq_false] at h
    obtain ⟨rfl, rfl⟩ := (hfeq a b).1 h
    rw [hadd] at hnadd
    simp at hnadd
  · exact hd.no_feas a b
  · exact hd.no_feas a b
  · exact hd.no_feas a b

/-- A feasible pair of a building state joins two distinct components. -/
theorem building_not_connected {s : OrderState n} (hb : BuildingCore s)
    {a b : Fin n} (hne : a ≠ b) (hnsc : ¬ sameComp s a b) : ¬ Connected s a b := by
  intro h
  rcases (hb.label_conn a b).1 h with heq | hsc
  · exact hne heq
  · exact hnsc hsc

end TopicSort

namespace TopicSort

variable {n : Nat}

/-- Full description of a successful path-variant `add_edge` call from an
invariant state: the call succeeds, the invariant is preserved, the sorted
pair is committed, it never joined two already-connected nodes, and the
feasible set only shrinks. -/
theorem path_step_ok {s : OrderState n} (hn : 2 ≤ n) (hinv : Inv .path s)
    {na nb a b : Fin n} (hab : sortPair na nb = (a, b))
    (hf : s.feasible_edges a b = true) :
    ∃ r, TopicSortSolution.add_edge s na nb = .ok r ∧ Inv .path r ∧
      r.edges_added a b = true ∧ ¬ Connected s a b ∧
      (∀ i j, r.feasible_edges i j = true → s.feasible_edges i j = true) := by
  obtain ⟨hc, hph⟩ := hinv
  rcases hph with ⟨hb, _hany⟩ | ⟨hv, _⟩ | ⟨_, hd⟩ | ⟨hv, _⟩ | hd
  · -- building phase
    obtain ⟨hab', h2a, h2b, hnsc, hda, hdb⟩ := building_feas_facts hc hb hf
    have hne : a ≠ b := fin_ne_of_val_lt hab'
    have hnotc : ¬ Connected s a b := building_not_connected hb hne hnsc
    obtain ⟨r1, hbase, hedges, hdegs, hsub, hcr, hcard, hdisj⟩ :=
      base_step_building hn hc hb hab hf
    have hcommit : r1.edges_added a b = true := by
      rw [hedges]
      simp
    have hval : r1.ensureValidityB = true := (ensureValidityB_eq_true_iff _).2 hcr.edges_lt
    rcases hdisj with ⟨hcomp, hbr, h3⟩ | ⟨hcomp, hd2⟩
    · by_cases hany1 : r1.anyFeasible = true
      · -- the feasible set is still inhabited: stay in the building phase
        exact ⟨r1, topic_wrapper_ok hbase hany1 hval, ⟨hcr, Or.inl ⟨hbr, hany1⟩⟩,
          hcommit, hnotc, fun i j hij => (hsub i j hij).1⟩
      · -- the path is finished: `finish` records completion
        have hany0 : r1.anyFeasible = false := by
          cases h : r1.anyFeasible
          · rfl
          · exact absurd h hany1
        obtain ⟨hccs, hcca, hd1c, hdm, hec, hconn⟩ :=
          building_no_feas_structure hn hcr hbr ((anyFeasible_eq_false_iff _).1 hany0)
        refine ⟨TopicSortSolution.finish r1, topic_wrapper_finish hbase hany0,
          ⟨common_of_fields (s := r1) rfl rfl rfl hcr, Or.inr (Or.inr (Or.inl ⟨rfl, ?_⟩))⟩,
          hcommit, hnotc, fun i j hij => (hsub i j hij).1⟩
        exact ⟨rfl, (anyFeasible_eq_false_iff _).1 hany0, hec, hd1c, hdm,
          fun i j => connected_mono (fun x y h => h) (hconn i j), hccs, hcca⟩
    · -- n = 2: the single edge completed the engine inside the base step
      have hany0 : r1.anyFeasible = false :=
        (anyFeasible_eq_false_iff _).2 hd2.no_feas
      exact ⟨TopicSortSolution.finish r1, topic_wrapper_finish hbase hany0,
        ⟨common_of_fields (s := r1) rfl rfl rfl hcr,
          Or.inr (Or.inr (Or.inr (Or.inr
            ⟨hd2.two, rfl, hd2.no_feas, hd2.edges_iff, hd2.deg_one, hd2.cc_none⟩)))⟩,
        hcommit, hnotc, fun i j hij => (hsub i j hij).1⟩
  · exact absurd hv (by simp)
  · rw [hd.no_feas a b] at hf
    simp at hf
  · exact absurd hv (by simp)
  · rw [hd.no_feas a b] at hf
    simp at hf

end TopicSort

namespace TopicSort

variable {n : Nat}

/-- Full description of a successful cycle-variant `add_edge` call from an
invariant state: the call succeeds, the invariant is preserved, the sorted
pair is committed, the pair joined two distinct components except for the
final loop-closing edge, and feasibility only shrinks except for the single
re-opened closing pair. -/
theorem cycle_step_ok {s : OrderState n} (hn : 2 ≤ n) (hinv : Inv .cycle s)
    {na nb a b : Fin n} (hab : sortPair na nb = (a, b))
    (hf : s.feasible_edges a b = true) :
    ∃ r, TSPSolution.add_edge s na nb = .ok r ∧ Inv .cycle r ∧
      r.edges_added a b = true ∧
      (¬ Connected s a b ∨
        (s.node_degrees a = 1 ∧ s.node_degrees b = 1 ∧
         (∀ i j, s.feasible_edges i j = true ↔ (i = a ∧ j = b)) ∧
         r.complete = true)) ∧
      (∀ i j, r.feasible_edges i j = true →
        s.feasible_edges i j = true ∨
        (r.node_degrees i = 1 ∧ r.node_degrees j = 1 ∧ (i : Nat) < j ∧
         edgeCard r = n - 1 ∧ r.complete = false ∧
         ∀ k l, r.feasible_edges k l = true → k = i ∧ l = j)) := by
  obtain ⟨hc, hph⟩ := hinv
  rcases hph with ⟨hb, _hany⟩ | ⟨_, hcl⟩ | ⟨hv, _⟩ | ⟨_, hd⟩ | hd
  · -- building phase
    obtain ⟨hab', h2a, h2b, hnsc, hda, hdb⟩ := building_feas_facts hc hb hf
    have hne : a ≠ b := fin_ne_of_val_lt hab'
    have hnotc : ¬ Connected s a b := building_not_connected hb hne hnsc
    obtain ⟨r1, hbase, hedges, hdegs, hsub, hcr, hcard, hdisj⟩ :=
      base_step_building hn hc hb hab hf
    have hcommit : r1.edges_added a b = true := by
      rw [hedges]
      simp
    have hval : r1.ensureValidityB = true := (ensureValidityB_eq_true_iff _).2 hcr.edges_lt
    rcases hdisj with ⟨hcomp, hbr, h3⟩ | ⟨hcomp, hd2⟩
    · by_cases hany1 : r1.anyFeasible = true
      · -- the feasible set is still inhabited: stay in the building phase
        refine ⟨r1, tsp_wrapper_ok hbase (fun hcon => ?_) hval,
          ⟨hcr, Or.inl ⟨hbr, hany1⟩⟩,
          hcommit, Or.inl hnotc, fun i j hij => Or.inl (hsub i j hij).1⟩
        rw [hany1] at hcon
        simp at hcon
      · -- a Hamiltonian path just finished: re-open the closing pair
        have hany0 : r1.anyFeasible = false := by
          cases h : r1.anyFeasible
          · rfl
          · exact absurd h hany1
        have h00 : ∀ i j, r1.feasible_edges i j = false :=
          (anyFeasible_eq_false_iff _).1 hany0
        obtain ⟨hccs, hcca, hd1c, hdm, hec, hconn⟩ :=
          building_no_feas_structure hn hcr hbr h00
        have hlen : (degreeOneNodes r1).length = 2 := by
          rw [degreeOneNodes_length]
          exact hd1c
        obtain ⟨e1, e2, hlist⟩ : ∃ e1 e2, degreeOneNodes r1 = [e1, e2] := by
          cases hL : degreeOneNodes r1 with
          | nil => rw [hL] at hlen; simp at hlen
          | cons x t =>
            cases t with
            | nil => rw [hL] at hlen; simp at hlen
            | cons y t2 =>
              cases t2 with
              | nil => exact ⟨x, y, rfl⟩
              | cons z t3 => rw [hL] at hlen; simp at hlen
        have hsorted := degreeOneNodes_sorted r1
        rw [hlist] at hsorted
        have hlt : e1 < e2 := (List.pairwise_cons.1 hsorted).1 e2 (by simp)
        have hle : e1 ≤ e2 := le_of_lt hlt
        have hd1 : r1.node_degrees e1 = 1 :=
          (degreeOneNodes_mem r1 e1).1 (by rw [hlist]; simp)
        have hd2' : r1.node_degrees e2 = 1 :=
          (degreeOneNodes_mem r1 e2).1 (by rw [hlist]; simp)
        have hmemiff : ∀ x : Fin n, r1.node_degrees x = 1 ↔ (x = e1 ∨ x = e2) := by
          intro x
          rw [← degreeOneNodes_mem r1 x, hlist]
          simp
        have hnadj : ¬ adjacent r1 e1 e2 := by
          intro hadj
          have hpc := pair_component hcr hadj hd1 hd2'
          have hsubuniv : (Finset.univ : Finset (Fin n)) ⊆ {e1, e2} := by
            intro z _
            rcases hpc z (hconn e1 z) with h | h <;> simp [h]
          have hle2 := Finset.card_le_card hsubuniv
          rw [Finset.card_univ, Fintype.card_fin] at hle2
          have hc2 : ({e1, e2} : Finset (Fin n)).card ≤ 2 := by
            apply le_trans (Finset.card_insert_le e1 {e2})
            simp
          omega
        have hE12 : r1.edges_added e1 e2 = false := by
          cases h : r1.edges_added e1 e2
          · rfl
          · exact absurd (Or.inl h) hnadj
        have hrest2 : ∀ i, i ≠ e1 → i ≠ e2 → r1.node_degrees i = 2 := by
          intro i h1 h2
          rcases hdm i with h | h
          · rcases (hmemiff i).1 h with rfl | rfl
            · exact absurd rfl h1
            · exact absurd rfl h2
          · exact h
        have hfeqR : ∀ i j, (reopen r1 e1 e2).feasible_edges i j = true ↔
            (i = e1 ∧ j = e2) := by
          intro i j
          show (if i = e1 ∧ j = e2 then true else r1.feasible_edges i j) = true ↔ _
          by_cases h : i = e1 ∧ j = e2
          · rw [if_pos h]
            simp [h]
          · rw [if_neg h]
            simp [h00 i j, h]
        have hvalR : (reopen r1 e1 e2).ensureValidityB = true :=
          (ensureValidityB_eq_true_iff _).2 hcr.edges_lt
        have hcomR : CommonInv (reopen r1 e1 e2) :=
          { edges_lt := hcr.edges_lt
            feas_lt := fun i j hij => by
              rcases (hfeqR i j).1 hij with ⟨rfl, rfl⟩
              exact hlt
            deg_eq := hcr.deg_eq
            deg_le := hcr.deg_le
            deg_sum := hcr.deg_sum }
        have hclR : ClosingInv (reopen r1 e1 e2) :=
          { not_complete := hcomp
            three_le := h3
            ends := ⟨e1, e2, hlt, hd1, hd2', hE12, hfeqR, hrest2⟩
            edge_count := hec
            all_conn := fun i j => connected_mono (fun x y h => h) (hconn i j)
            cc_same := hccs
            cc_assigned := hcca }
        refine ⟨reopen r1 e1 e2, tsp_wrapper_reopen hbase hcomp hany0 hlist hle hvalR,
          ⟨hcomR, Or.inr (Or.inl ⟨rfl, hclR⟩)⟩, hcommit, Or.inl hnotc, ?_⟩
        intro i j hij
        rcases (hfeqR i j).1 hij with ⟨rfl, rfl⟩
        exact Or.inr ⟨hd1, hd2', hlt, hec, hcomp, fun k l hkl => (hfeqR k l).1 hkl⟩
    · -- n = 2: completed through the early return; nothing is re-opened
      have hno : ¬ (r1.complete = false ∧ r1.anyFeasible = false) := by
        rw [hcomp]
        simp
      exact ⟨r1, tsp_wrapper_ok hbase hno hval,
        ⟨hcr, Or.inr (Or.inr (Or.inr (Or.inr hd2)))⟩,
        hcommit, Or.inl hnotc,
        fun i j hij => absurd hij (by simp [hd2.no_feas i j])⟩
  · -- closing phase: the call commits the loop-closing pair
    obtain ⟨u, v, huv, hdu, hdv, hnadd, hfeq, hrest⟩ := hcl.ends
    obtain ⟨rfl, rfl⟩ := (hfeq a b).1 hf
    obtain ⟨r1, hbase, hcompl, hcom1, hdc1, hcommit, hnofeas⟩ :=
      base_step_closing hc hcl hab hf
    have hval : r1.ensureValidityB = true := (ensureValidityB_eq_true_iff _).2 hcom1.edges_lt
    have hno : ¬ (r1.complete = false ∧ r1.anyFeasible = false) := by
      rw [hcompl]
      simp
    exact ⟨r1, tsp_wrapper_ok hbase hno hval,
      ⟨hcom1, Or.inr (Or.inr (Or.inr (Or.inl ⟨rfl, hdc1⟩)))⟩, hcommit,
      Or.inr ⟨hdu, hdv, hfeq, hcompl⟩,
      fun i j hij => absurd hij (by simp [hnofeas i j])⟩
  · exact absurd hv (by simp)
  · rw [hd.no_feas a b] at hf
    simp at hf
  · rw [hd.no_feas a b] at hf
    simp at hf

end TopicSort

namespace TopicSort

variable {n : Nat}

/-- A successful call of either variant preserves the invariant. -/
theorem variant_step_ok {v : Variant} {s : OrderState n} (hn : 2 ≤ n)
    (hinv : Inv v s) {na nb a b : Fin n} (hab : sortPair na nb = (a, b))
    (hf : s.feasible_edges a b = true) :
    ∃ r, variantAdd v s na nb = .ok r ∧ Inv v r := by
  cases v
  · obtain ⟨r, h1, h2, _⟩ := path_step_ok hn hinv hab hf
    exact ⟨r, h1, h2⟩
  · obtain ⟨r, h1, h2, _⟩ := cycle_step_ok hn hinv hab hf
    exact ⟨r, h1, h2⟩

/-- The fresh `__init__` state satisfies the invariant. -/
theorem inv_init (hn : 2 ≤ n) (v : Variant) : Inv v (OrderSolution.init n) := by
  have hE : ∀ i j : Fin n, (OrderSolution.init n).edges_added i j = false := fun _ _ => rfl
  have hadj : ∀ i j : Fin n, ¬ adjacent (OrderSolution.init n) i j := by
    intro i j h
    rcases h with h | h <;> exact Bool.false_ne_true h
  have hdeg : ∀ i : Fin n, degCount (OrderSolution.init n) i = 0 := by
    intro i
    unfold degCount
    rw [Finset.filter_false_of_mem (fun j _ => hadj i j), Finset.card_empty]
  have hcard : edgeCard (OrderSolution.init n) = 0 := by
    unfold edgeCard
    rw [Finset.filter_false_of_mem, Finset.card_empty]
    intro p _
    exact Bool.false_ne_true
  have hnsc : ∀ i j : Fin n, ¬ sameComp (OrderSolution.init n) i j := by
    intro i j h
    exact h.2 rfl
  refine ⟨⟨?_, ?_, ?_, ?_, ?_⟩, Or.inl ⟨⟨rfl, ?_, ?_, ?_, ?_, ?_⟩, ?_⟩⟩
  · intro i j h
    exact absurd h (by simp [hE])
  · intro i j h
    exact of_decide_eq_true h
  · intro i
    rw [hdeg]
    rfl
  · intro i
    exact Nat.zero_le 2
  · rw [hcard]
    simp only [Nat.mul_zero]
    apply Finset.sum_eq_zero
    intro i _
    rfl
  · intro i j
    constructor
    · intro h
      exact ⟨of_decide_eq_true h, by show (0:Nat) < 2; omega, by show (0:Nat) < 2; omega,
        hnsc i j⟩
    · intro h
      exact decide_eq_true h.1
  · intro i
    constructor
    · intro _
      rfl
    · intro _
      rfl
  · intro i h
    exact absurd rfl h
  · intro i j
    constructor
    · intro h
      exact Or.inl (connected_no_edges hE h)
    · intro h
      rcases h with rfl | h
      · exact Relation.ReflTransGen.refl
      · exact absurd h (hnsc i j)
  · intro i h
    exact absurd rfl h
  · rw [anyFeasible_eq_true_iff]
    exact ⟨⟨0, by omega⟩, ⟨1, by omega⟩, rfl⟩

/-- Every reachable state of either variant satisfies the invariant. -/
theorem reach_inv {v : Variant} {s : OrderState n} (hr : Reach v s) (hn : 2 ≤ n) :
    Inv v s := by
  induction hr with
  | init => exact inv_init hn v
  | step a b hprev hok ih =>
    obtain ⟨p, q, hpq⟩ : ∃ p q, sortPair a b = (p, q) := ⟨_, _, rfl⟩
    rename_i s1 s2
    by_cases hfe : s1.feasible_edges p q = true
    · obtain ⟨r, heq, hinvr⟩ := variant_step_ok hn ih hpq hfe
      rw [heq] at hok
      exact (Except.ok.inj hok) ▸ hinvr
    · have hfe0 : s1.feasible_edges p q = false := by
        cases h : s1.feasible_edges p q
        · rfl
        · exact absurd h hfe
      rw [variantAdd_infeasible hpq hfe0] at hok
      cases hok

end TopicSort

namespace TopicSort

/-- The 3-node cycle engine after `add_edge(0, 1)`. -/
def mid1 : OrderState 3 :=
  { edges_added := fun i j => decide ((i, j) = (0, 1))
    node_degrees := fun i => if (i : Nat) = 2 then 0 else 1
    connected_component := fun i => if (i : Nat) = 2 then -1 else 0
    feasible_edges := fun i j => decide ((i, j) = (0, 2) ∨ (i, j) = (1, 2))
    complete := false }

/-- The 3-node cycle engine after `add_edge(0, 1)` and `add_edge(1, 2)`:
the Hamiltonian path is finished and the closing pair `(0, 2)` has been
re-opened by the wrapper. -/
def mid2 : OrderState 3 :=
  { edges_added := fun i j => decide ((i, j) = (0, 1) ∨ (i, j) = (1, 2))
    node_degrees := fun i => if (i : Nat) = 1 then 2 else 1
    connected_component := fun _ => 0
    feasible_edges := fun i j => decide ((i, j) = (0, 2))
    complete := false }

/-- `done2` is reached by the path variant on 2 nodes. -/
theorem reach_done2_path : Reach .path done2 :=
  @Reach.step .path 2 (OrderSolution.init 2) done2 0 1 (Reach.init 2) (by decide)

/-- `done2` is reached by the cycle variant on 2 nodes. -/
theorem reach_done2_cycle : Reach .cycle done2 :=
  @Reach.step .cycle 2 (OrderSolution.init 2) done2 0 1 (Reach.init 2) (by decide)

/-- `cycle3` is reached by the cycle variant on 3 nodes. -/
theorem reach_cycle3 : Reach .cycle cycle3 :=
  @Reach.step .cycle 3 mid2 cycle3 0 2
    (@Reach.step .cycle 3 mid1 mid2 1 2
      (@Reach.step .cycle 3 (OrderSolution.init 3) mid1 0 1
        (Reach.init 3) (by decide)) (by decide)) (by decide)

end TopicSort

namespace TopicSort

variable {n : Nat}

/-- All nodes of `done2` are connected through its single edge. -/
theorem done2_conn : ∀ i j : Fin 2, Connected done2 i j := by
  intro i j
  fin_cases i <;> fin_cases j
  · exact Relation.ReflTransGen.refl
  · exact Relation.ReflTransGen.single (Or.inl (by decide))
  · exact Relation.ReflTransGen.single (Or.inr (by decide))
  · exact Relation.ReflTransGen.refl

/-- The 2-node terminal invariant pins the state completely. -/
theorem doneTwo_eq {s : OrderState 2} (hd : DoneTwoInv s) : s = done2 := by
  apply OrderState.ext'
  · funext i j
    show s.edges_added i j = decide ((i : Nat) < j)
    by_cases hij : (i : Nat) < j
    · rw [(hd.edges_iff i j).2 hij, decide_eq_true hij]
    · rw [decide_eq_false hij]
      cases h : s.edges_added i j
      · rfl
      · exact absurd ((hd.edges_iff i j).1 h) hij
  · funext i
    exact hd.deg_one i
  · funext i
    exact hd.cc_none i
  · funext i j
    exact hd.no_feas i j
  · exact hd.complete

/-- A completed path state has exactly `n - 2` degree-2 nodes. -/
theorem deg_two_card_of_path {s : OrderState n} (hd : DonePathInv s) :
    (Finset.univ.filter fun i => s.node_degrees i = 2).card = n - 2 := by
  have hsplit := Finset.filter_card_add_filter_neg_card_eq_card
    (s := (Finset.univ : Finset (Fin n))) (p := fun i : Fin n => s.node_degrees i = 1)
  rw [hd.deg_one_card, Finset.card_univ, Fintype.card_fin] at hsplit
  have hcong : (Finset.univ.filter fun i : Fin n => ¬ s.node_degrees i = 1) =
      (Finset.univ.filter fun i => s.node_degrees i = 2) := by
    apply Finset.filter_congr
    intro i _
    rcases hd.deg_mem i with h | h <;> simp [h]
  rw [hcong] at hsplit
  omega

/-- A completed path state meets the path structural criterion. -/
theorem donePath_criterion {s : OrderState n} (hd : DonePathInv s) : pathCriterion s :=
  ⟨hd.edge_count, hd.deg_one_card, deg_two_card_of_path hd, hd.all_conn⟩

end TopicSort

namespace TopicSort

variable {n : Nat}

/-- C1: a feasible `add_edge` call of either variant commits its sorted
pair, and never joins two nodes already in the same connected component —
except the cycle variant's single loop-closing edge, committed only when it
is the unique remaining feasible pair, joining the two degree-1 endpoints
and completing the structure. -/
theorem claim_C1 {v : Variant} {s r : OrderState n} {na nb a b : Fin n}
    (hn : 2 ≤ n) (hr : Reach v s) (hab : sortPair na nb = (a, b))
    (hf : s.feasible_edges a b = true)
    (hok : variantAdd v s na nb = .ok r) :
    r.edges_added a b = true ∧
    (¬ Connected s a b ∨
      (v = .cycle ∧ s.node_degrees a = 1 ∧ s.node_degrees b = 1 ∧
       (∀ i j, s.feasible_edges i j = true ↔ (i = a ∧ j = b)) ∧
       r.complete = true)) := by
  have hinv := reach_inv hr hn
  cases v
  · obtain ⟨r', heq, _, hcommit, hnot, _⟩ := path_step_ok hn hinv hab hf
    simp only [variantAdd] at hok
    rw [heq] at hok
    obtain rfl := Except.ok.inj hok
    exact ⟨hcommit, Or.inl hnot⟩
  · obtain ⟨r', heq, _, hcommit, hdisj, _⟩ := cycle_step_ok hn hinv hab hf
    simp only [variantAdd] at hok
    rw [heq] at hok
    obtain rfl := Except.ok.inj hok
    refine ⟨hcommit, ?_⟩
    rcases hdisj with h | h
    · exact Or.inl h
    · exact Or.inr ⟨rfl, h⟩

/-- Witness for C1 at the 2-node path engine's single call. -/
theorem claim_C1_witness :
    done2.edges_added 0 1 = true ∧
    (¬ Connected (OrderSolution.init 2) 0 1 ∨
      (Variant.path = .cycle ∧ (OrderSolution.init 2).node_degrees 0 = 1 ∧
       (OrderSolution.init 2).node_degrees 1 = 1 ∧
       (∀ i j, (OrderSolution.init 2).feasible_edges i j = true ↔ (i = 0 ∧ j = 1)) ∧
       done2.complete = true)) :=
  @claim_C1 2 .path (OrderSolution.init 2) done2 0 1 0 1 (by omega) (Reach.init 2)
    (by decide) (by decide) (by decide)

/-- C2 (counterexample): on the cycle variant with N = 2, the single edge
leaves the feasible set empty while the structural cycle criterion fails. -/
theorem claim_C2_counterexample :
    Reach .cycle done2 ∧ done2.anyFeasible = false ∧ ¬ structCriterion .cycle done2 :=
  ⟨reach_done2_cycle, by decide, fun h => absurd h.1 (by decide)⟩

/-- C2 (amended): for the path variant with N ≥ 2, and the cycle variant
with N ≥ 3, every reachable state either meets the variant's structural
completion criterion or keeps at least one feasible pair. -/
theorem claim_C2 {v : Variant} {s : OrderState n} (hvn : v = .path ∨ 3 ≤ n)
    (hn : 2 ≤ n) (hr : Reach v s) :
    structCriterion v s ∨ s.anyFeasible = true := by
  obtain ⟨hc, hph⟩ := reach_inv hr hn
  rcases hph with ⟨_, hany⟩ | ⟨hv, hcl⟩ | ⟨hv, hd⟩ | ⟨hv, hd⟩ | hd
  · exact Or.inr hany
  · right
    obtain ⟨u, w, _, _, _, _, hfeq, _⟩ := hcl.ends
    rw [anyFeasible_eq_true_iff]
    exact ⟨u, w, (hfeq u w).2 ⟨rfl, rfl⟩⟩
  · left
    subst hv
    exact donePath_criterion hd
  · left
    subst hv
    exact ⟨hd.edge_count, hd.deg_two, hd.all_conn⟩
  · left
    have h2 := hd.two
    subst h2
    have hv : v = .path := by
      rcases hvn with h | h
      · exact h
      · omega
    subst hv
    rw [doneTwo_eq hd]
    exact ⟨by decide, by decide, by decide, done2_conn⟩

/-- Witness for C2 at the completed 2-node path engine. -/
theorem claim_C2_witness :
    structCriterion .path done2 ∨ done2.anyFeasible = true :=
  claim_C2 (Or.inl rfl) (by omega) reach_done2_path

end TopicSort

namespace TopicSort

variable {n : Nat}

/-- When every committed edge is canonical (`i < j`), `TSPSolution.cost`
is the sum of the cost entries of the committed pairs `(i, j)`, `i < j`. -/
theorem cost_eq_sum_committed {s : OrderState n} (costs : Fin n → Fin n → Int)
    (hval : ∀ i j, s.edges_added i j = true → (i : Nat) < j) :
    TSPSolution.cost costs s =
      ∑ i : Fin n, ∑ j : Fin n,
        if (i : Nat) < (j : Nat) ∧ s.edges_added i j = true then costs i j else 0 := by
  unfold TSPSolution.cost
  simp only [← Fin.sum_univ_def]
  apply Finset.sum_congr rfl
  intro i _
  apply Finset.sum_congr rfl
  intro j _
  by_cases h : s.edges_added i j = true
  · rw [if_pos h, if_pos ⟨hval i j h, h⟩]
  · rw [if_neg h, if_neg (fun hc => h hc.2)]

/-- C3: a cycle-variant state passing `ensure_completion` has exactly N
committed edges, all degrees 2, a single component label, and `cost` equal
to the sum of the cost entries over committed pairs `(i, j)` with `i < j`. -/
theorem claim_C3 {s : OrderState n} (hn : 0 < n) (costs : Fin n → Fin n → Int)
    (h : TSPSolution.ensure_completion hn s) :
    edgeCard s = n ∧ (∀ i, s.node_degrees i = 2) ∧
    (∀ i j, s.connected_component i = s.connected_component j) ∧
    TSPSolution.cost costs s =
      ∑ i : Fin n, ∑ j : Fin n,
        if (i : Nat) < (j : Nat) ∧ s.edges_added i j = true then costs i j else 0 := by
  obtain ⟨⟨hvalid, hany, hcc, hcomp⟩, hsum, hdeg⟩ := h
  have hlt := (ensureValidityB_eq_true_iff s).1 hvalid
  refine ⟨?_, hdeg, ?_, cost_eq_sum_committed costs hlt⟩
  · rw [← edgeSum_eq_edgeCard]
    exact hsum
  · intro i j
    rw [hcc i, hcc j]

/-- Witness for C3 at the completed 3-node tour. -/
theorem claim_C3_witness :
    edgeCard cycle3 = 3 ∧ (∀ i, cycle3.node_degrees i = 2) ∧
    (∀ i j, cycle3.connected_component i = cycle3.connected_component j) ∧
    TSPSolution.cost (fun i j => (i : Int) + (j : Int)) cycle3 =
      ∑ i : Fin 3, ∑ j : Fin 3, if (i : Nat) < (j : Nat) ∧ cycle3.edges_added i j = true
        then (i : Int) + (j : Int) else 0 :=
  claim_C3 (by omega) (fun i j => (i : Int) + (j : Int))
    ⟨⟨by decide, by decide, by decide, by decide⟩, by decide, by decide⟩

/-- The checker's `List.filter` count equals the `Finset` count. -/
theorem deg_filter_length (s : OrderState n) (k : Nat) :
    ((List.finRange n).filter fun i => s.node_degrees i = k).length =
      (Finset.univ.filter fun i => s.node_degrees i = k).card := by
  rw [Finset.card_filter, Fin.sum_univ_def]
  induction List.finRange n with
  | nil => rfl
  | cons x xs ih =>
    by_cases hx : s.node_degrees x = k <;>
      simp [List.filter_cons, hx, ih] <;> omega

/-- C4: a reachable path-variant state passing `ensure_completion` has
exactly N-1 committed edges, exactly two degree-1 nodes, exactly N-2
degree-2 nodes, and all nodes form one connected component through the
committed edges; and the N = 2 path engine completes after its single edge
with both nodes at degree 1, no degree-2 node, and both nodes connected. -/
theorem claim_C4 (hn : 2 ≤ n) (hp : 0 < n) {s : OrderState n}
    (hr : Reach .path s) (h : TopicSortSolution.ensure_completion hp s) :
    (edgeCard s = n - 1 ∧
     (Finset.univ.filter fun i => s.node_degrees i = 1).card = 2 ∧
     (Finset.univ.filter fun i => s.node_degrees i = 2).card = n - 2 ∧
     (∀ i j, Connected s i j)) ∧
    (TopicSortSolution.add_edge (OrderSolution.init 2) 0 1 = .ok done2 ∧
     (∀ i : Fin 2, done2.node_degrees i = 1) ∧
     (Finset.univ.filter fun i : Fin 2 => done2.node_degrees i = 2).card = 0 ∧
     done2.complete = true ∧ (∀ i j, Connected done2 i j)) := by
  obtain ⟨hc, hph⟩ := reach_inv hr hn
  obtain ⟨⟨hvalid, hany, hcc, hcomp⟩, hsum, hd2len, hd1len⟩ := h
  refine ⟨?_, by decide, by decide, by decide, by decide, done2_conn⟩
  rcases hph with ⟨hb, _⟩ | ⟨hv, _⟩ | ⟨_, hd⟩ | ⟨hv, _⟩ | hd
  · rw [hb.not_complete] at hcomp
    simp at hcomp
  · exact absurd hv (by simp)
  · exact ⟨hd.edge_count, hd.deg_one_card, deg_two_card_of_path hd, hd.all_conn⟩
  · exact absurd hv (by simp)
  · have h2 := hd.two
    subst h2
    rw [doneTwo_eq hd]
    exact ⟨by decide, by decide, by decide, done2_conn⟩

/-- Witness for C4 at the completed 2-node path engine. -/
theorem claim_C4_witness :
    (edgeCard done2 = 2 - 1 ∧
     (Finset.univ.filter fun i => done2.node_degrees i = 1).card = 2 ∧
     (Finset.univ.filter fun i => done2.node_degrees i = 2).card = 2 - 2 ∧
     (∀ i j, Connected done2 i j)) ∧
    (TopicSortSolution.add_edge (OrderSolution.init 2) 0 1 = .ok done2 ∧
     (∀ i : Fin 2, done2.node_degrees i = 1) ∧
     (Finset.univ.filter fun i : Fin 2 => done2.node_degrees i = 2).card = 0 ∧
     done2.complete = true ∧ (∀ i j, Connected done2 i j)) :=
  claim_C4 (by omega) (by omega) reach_done2_path
    ⟨⟨by decide, by decide, by decide, by decide⟩, by decide, by decide, by decide⟩

end TopicSort

namespace TopicSort

variable {n : Nat}

/-- C5: across a successful `add_edge` call, any pair feasible afterwards
was feasible before — except, on the cycle variant only, the single
re-opened loop-closing pair: the pair of the two degree-1 endpoints, at the
moment the structure holds N-1 edges and is not complete, and it is then
the unique feasible pair. -/
theorem claim_C5 {v : Variant} {s r : OrderState n} {na nb a b : Fin n}
    (hn : 2 ≤ n) (hr : Reach v s) (hab : sortPair na nb = (a, b))
    (hf : s.feasible_edges a b = true)
    (hok : variantAdd v s na nb = .ok r) :
    ∀ i j, r.feasible_edges i j = true →
      s.feasible_edges i j = true ∨
      (v = .cycle ∧ r.node_degrees i = 1 ∧ r.node_degrees j = 1 ∧ (i : Nat) < j ∧
       edgeCard r = n - 1 ∧ r.complete = false ∧
       ∀ k l, r.feasible_edges k l = true → k = i ∧ l = j) := by
  have hinv := reach_inv hr hn
  cases v
  · obtain ⟨r', heq, _, _, _, hsub⟩ := path_step_ok hn hinv hab hf
    simp only [variantAdd] at hok
    rw [heq] at hok
    obtain rfl := Except.ok.inj hok
    exact fun i j hij => Or.inl (hsub i j hij)
  · obtain ⟨r', heq, _, _, _, hmon⟩ := cycle_step_ok hn hinv hab hf
    simp only [variantAdd] at hok
    rw [heq] at hok
    obtain rfl := Except.ok.inj hok
    intro i j hij
    rcases hmon i j hij with h | h
    · exact Or.inl h
    · exact Or.inr ⟨rfl, h⟩

/-- Witness for C5 at the 3-node cycle engine's second call, whose
re-opened closing pair (0, 2) realizes the exceptional disjunct. -/
theorem claim_C5_witness :
    mid1.feasible_edges 0 2 = true ∨
    (Variant.cycle = .cycle ∧ mid2.node_degrees 0 = 1 ∧ mid2.node_degrees 2 = 1 ∧
     ((0 : Fin 3) : Nat) < ((2 : Fin 3) : Nat) ∧ edgeCard mid2 = 3 - 1 ∧
     mid2.complete = false ∧
     ∀ k l, mid2.feasible_edges k l = true → k = 0 ∧ l = 2) :=
  @claim_C5 3 .cycle mid1 mid2 1 2 1 2 (by omega)
    (@Reach.step .cycle 3 (OrderSolution.init 3) mid1 0 1 (Reach.init 3) (by decide))
    (by decide) (by decide) (by decide) 0 2 (by decide)

/-- C6: in every reachable state, each degree is at most 2 and equals the
number of committed edges touching the node, and the committed edges are
canonical: stored once, as a strictly increasing index pair. -/
theorem claim_C6 {v : Variant} {s : OrderState n} (hn : 2 ≤ n) (hr : Reach v s) :
    (∀ i, s.node_degrees i ≤ 2 ∧ s.node_degrees i = degCount s i) ∧
    (∀ i j, s.edges_added i j = true → (i : Nat) < j ∧ s.edges_added j i = false) := by
  obtain ⟨hc, _⟩ := reach_inv hr hn
  refine ⟨fun i => ⟨hc.deg_le i, hc.deg_eq i⟩, fun i j hij => ⟨hc.edges_lt i j hij, ?_⟩⟩
  cases h : s.edges_added j i
  · rfl
  · have h1 := hc.edges_lt i j hij
    have h2 := hc.edges_lt j i h
    omega

/-- Witness for C6 at the completed 2-node path engine. -/
theorem claim_C6_witness :
    (∀ i, done2.node_degrees i ≤ 2 ∧ done2.node_degrees i = degCount done2 i) ∧
    (∀ i j, done2.edges_added i j = true →
      (i : Nat) < j ∧ done2.edges_added j i = false) :=
  claim_C6 (by omega) reach_done2_path

end TopicSort

namespace TopicSort

variable {n : Nat}

/-- C7 (counterexample): at the terminal 2-node state the engine's early
return skips the label update, so a node with a committed edge (degree 1)
still carries the unassigned label -1. -/
theorem claim_C7_counterexample :
    Reach .path done2 ∧ done2.node_degrees 0 = 1 ∧ done2.connected_component 0 = -1 :=
  ⟨reach_done2_path, by decide, by decide⟩

/-- C7 (amended): for N ≥ 3, in every reachable state the component labels
are unassigned exactly on the degree-0 nodes, and on nodes with a committed
edge sharing a label is exactly graph connectivity. -/
theorem claim_C7 {v : Variant} {s : OrderState n} (hn : 3 ≤ n) (hr : Reach v s) :
    (∀ i, s.connected_component i = -1 ↔ s.node_degrees i = 0) ∧
    (∀ i j, s.node_degrees i ≠ 0 → s.node_degrees j ≠ 0 →
      (Connected s i j ↔ sameComp s i j)) := by
  obtain ⟨hc, hph⟩ := reach_inv hr (by omega)
  rcases hph with ⟨hb, _⟩ | ⟨_, hcl⟩ | ⟨_, hd⟩ | ⟨_, hd⟩ | hd
  · refine ⟨hb.cc_deg, fun i j hi hj => ?_⟩
    have hcca : s.connected_component i ≠ -1 := fun h => hi ((hb.cc_deg i).1 h)
    constructor
    · intro h
      rcases (hb.label_conn i j).1 h with rfl | hsc
      · exact ⟨rfl, hcca⟩
      · exact hsc
    · intro h
      exact (hb.label_conn i j).2 (Or.inr h)
  · have hd0 : ∀ i, s.node_degrees i ≠ 0 := by
      obtain ⟨u, w, _, hdu, hdw, _, _, hrest⟩ := hcl.ends
      intro i
      by_cases h1 : i = u
      · subst h1
        omega
      · by_cases h2 : i = w
        · subst h2
          omega
        · have := hrest i h1 h2
          omega
    exact ⟨fun i => ⟨fun h => absurd h (hcl.cc_assigned i), fun h => absurd h (hd0 i)⟩,
      fun i j _ _ => ⟨fun _ => ⟨hcl.cc_same i j, hcl.cc_assigned i⟩,
        fun _ => hcl.all_conn i j⟩⟩
  · have hd0 : ∀ i, s.node_degrees i ≠ 0 := by
      intro i
      rcases hd.deg_mem i with h | h <;> omega
    exact ⟨fun i => ⟨fun h => absurd h (hd.cc_assigned i), fun h => absurd h (hd0 i)⟩,
      fun i j _ _ => ⟨fun _ => ⟨hd.cc_same i j, hd.cc_assigned i⟩,
        fun _ => hd.all_conn i j⟩⟩
  · have hd0 : ∀ i, s.node_degrees i ≠ 0 := by
      intro i
      have := hd.deg_two i
      omega
    exact ⟨fun i => ⟨fun h => absurd h (hd.cc_assigned i), fun h => absurd h (hd0 i)⟩,
      fun i j _ _ => ⟨fun _ => ⟨hd.cc_same i j, hd.cc_assigned i⟩,
        fun _ => hd.all_conn i j⟩⟩
  · have := hd.two
    omega

/-- Witness for C7 at the completed 3-node tour. -/
theorem claim_C7_witness :
    (∀ i, cycle3.connected_component i = -1 ↔ cycle3.node_degrees i = 0) ∧
    (∀ i j, cycle3.node_degrees i ≠ 0 → cycle3.node_degrees j ≠ 0 →
      (Connected cycle3 i j ↔ sameComp cycle3 i j)) :=
  claim_C7 (by omega) reach_cycle3

/-- C8 (counterexample): re-adding the already committed edge (0, 1) of the
terminal 2-node cycle state trips the feasibility assert, so the call fails
with `InfeasibleEdgeError`, not `DuplicateEdgeError`. -/
theorem claim_C8_counterexample :
    Reach .cycle done2 ∧ done2.edges_added 0 1 = true ∧
    TSPSolution.add_edge done2 0 1 = .error (.infeasibleEdge, done2) :=
  ⟨reach_done2_cycle, by decide, by decide⟩

/-- C8 (amended): an `add_edge` call whose sorted pair is not feasible
fails with `InfeasibleEdgeError`, and — because a committed pair is never
feasible in a reachable state — a call on an already committed pair also
fails with `InfeasibleEdgeError` (the duplicate assert is unreachable). -/
theorem claim_C8 {v : Variant} {s : OrderState n} {na nb a b : Fin n}
    (hn : 2 ≤ n) (hr : Reach v s) (hab : sortPair na nb = (a, b)) :
    (s.feasible_edges a b = false → variantAdd v s na nb = .error (.infeasibleEdge, s)) ∧
    (s.edges_added a b = true → variantAdd v s na nb = .error (.infeasibleEdge, s)) :=
  ⟨fun hf => variantAdd_infeasible hab hf,
   fun hadd => variantAdd_infeasible hab (inv_committed_infeasible (reach_inv hr hn) hadd)⟩

/-- Witness for C8 at the terminal 2-node cycle state and its committed
pair (0, 1). -/
theorem claim_C8_witness :
    (done2.feasible_edges 0 1 = false →
      variantAdd .cycle done2 0 1 = .error (.infeasibleEdge, done2)) ∧
    (done2.edges_added 0 1 = true →
      variantAdd .cycle done2 0 1 = .error (.infeasibleEdge, done2)) :=
  @claim_C8 2 .cycle done2 0 1 0 1 (by omega) reach_done2_cycle (by decide)

/-- C10: from a reachable state, a failing `add_edge` call of either
variant reports `InfeasibleEdgeError` and carries back the state unchanged:
every failure happens at the pre-mutation feasibility guard. -/
theorem claim_C10 {v : Variant} {s t : OrderState n} {na nb : Fin n}
    {err : AddEdgeError} (hn : 2 ≤ n) (hr : Reach v s)
    (he : variantAdd v s na nb = .error (err, t)) :
    t = s ∧ err = .infeasibleEdge := by
  obtain ⟨a, b, hab⟩ : ∃ a b, sortPair na nb = (a, b) := ⟨_, _, rfl⟩
  cases hfe : s.feasible_edges a b
  · rw [variantAdd_infeasible hab hfe] at he
    have h := Except.error.inj he
    exact ⟨(congrArg Prod.snd h).symm, (congrArg Prod.fst h).symm⟩
  · obtain ⟨r, heq, _⟩ := variant_step_ok hn (reach_inv hr hn) hab hfe
    rw [heq] at he
    simp at he

/-- Witness for C10 at the failing diagonal call (0, 0) on a fresh 2-node
engine. -/
theorem claim_C10_witness :
    OrderSolution.init 2 = OrderSolution.init 2 ∧
    AddEdgeError.infeasibleEdge = .infeasibleEdge :=
  @claim_C10 2 .path (OrderSolution.init 2) (OrderSolution.init 2) 0 0 .infeasibleEdge
    (by omega) (Reach.init 2) (by decide)

end TopicSort

namespace TopicSort

variable {n : Nat}

/-- Round-half-to-even on the reals: the rounding `round`/numpy applies to
the Euclidean edge lengths (tsp.py lines 54-56).  On a tie (fractional part
exactly 1/2) the result is the even neighbour, otherwise the nearest
integer. -/
noncomputable def pythonRound (x : ℝ) : ℤ :=
  if Int.fract x = 1 / 2 then 2 * round (x / 2) else round x

/-- The cost matrix entry of `TSPProblem.__init__` (tsp.py lines 52-56):
the rounded Euclidean distance of the two coordinate pairs. -/
noncomputable def tspCost (points : Fin n → ℝ × ℝ) (i j : Fin n) : ℤ :=
  pythonRound (Real.sqrt
    (((points i).1 - (points j).1) ^ 2 + ((points i).2 - (points j).2) ^ 2))

/-- A passage as `TopicSortProblem.__init__` sees it after tokenization:
its character length (the `min` of the cost formula, topic_sort.py line 64)
and its filtered lemma sequence, tokens modelled as numbers (nltk's
tokenizer, lemmatizer and stopword list live outside the repository). -/
structure Passage where
  len : Nat
  lemmas : List Nat

/-- `nltk.ngrams(lemmas, k)`: the contiguous k-grams of the sequence. -/
def ngrams (k : Nat) (l : List Nat) : List (List Nat) :=
  (List.range (l.length + 1 - k)).map fun i => (l.drop i).take k

/-- The ngram bag of a passage for k = 1, 2, 3 (topic_sort.py lines 39-42,
`MAX_NGRAM_N = 3`). -/
def allNgrams (l : List Nat) : List (List Nat) :=
  ngrams 1 l ++ ngrams 2 l ++ ngrams 3 l

/-- `passage_ngrams[passage][g]` (topic_sort.py line 42): the frequency of
an ngram in a passage's bag. -/
def tfCount (p : Passage) (g : List Nat) : Nat :=
  (allNgrams p.lemmas).count g

/-- `ngram_document_frequency[g]` (topic_sort.py lines 44-46): the number
of passages whose bag contains the ngram. -/
def dfCount (ps : List Passage) (g : List Nat) : Nat :=
  (ps.filter fun p => decide (0 < tfCount p g)).length

/-- The TF-IDF similarity score of two passages (topic_sort.py lines
51-60): over the distinct ngrams of the first passage that occur in the
second, log-scaled term frequencies weighted by inverse document
frequency. -/
noncomputable def similarity (ps : List Passage) (p1 p2 : Passage) : ℝ :=
  (((allNgrams p1.lemmas).dedup.filter fun g => decide (0 < tfCount p2 g)).map fun g =>
    (1 + Real.log (tfCount p1 g)) * (1 + Real.log (tfCount p2 g)) *
      Real.log ((ps.length : ℝ) / (dfCount ps g : ℝ))).sum

/-- Truncation toward zero: the conversion a float undergoes when stored
into the integer cost matrix (topic_sort.py lines 63-64). -/
noncomputable def floatToInt (x : ℝ) : ℤ := if x < 0 then -⌊-x⌋ else ⌊x⌋

/-- The topic-sort cost entry (topic_sort.py lines 61-64):
`-1000 * similarity_score / min(len(passage1), len(passage2))`, truncated
into the integer matrix. -/
noncomputable def topicCost (ps : List Passage) (p1 p2 : Passage) : ℤ :=
  floatToInt ((-1000) * similarity ps p1 p2 / ((min p1.len p2.len : Nat) : ℝ))

theorem pythonRound_nonneg {x : ℝ} (hx : 0 ≤ x) : 0 ≤ pythonRound x := by
  unfold pythonRound
  split
  · have h0 : (0:ℤ) ≤ round (x / 2) := by
      rw [round_eq]
      exact Int.le_floor.2 (by push_cast; linarith)
    omega
  · rw [round_eq]
    exact Int.le_floor.2 (by push_cast; linarith)

theorem similarity_nonneg (ps : List Passage) (p1 p2 : Passage) :
    0 ≤ similarity ps p1 p2 := by
  unfold similarity
  apply List.sum_nonneg
  intro x hx
  rw [List.mem_map] at hx
  obtain ⟨g, hg, rfl⟩ := hx
  rw [List.mem_filter] at hg
  obtain ⟨hg1, hg2⟩ := hg
  have htf1 : 1 ≤ tfCount p1 g :=
    List.count_pos_iff.2 (List.mem_dedup.1 hg1)
  have htf2 : 1 ≤ tfCount p2 g := of_decide_eq_true hg2
  have h1 : (0:ℝ) ≤ 1 + Real.log (tfCount p1 g) := by
    have hx : (1:ℝ) ≤ (tfCount p1 g : ℝ) := by exact_mod_cast htf1
    have := Real.log_nonneg hx
    linarith
  have h2 : (0:ℝ) ≤ 1 + Real.log (tfCount p2 g) := by
    have hx : (1:ℝ) ≤ (tfCount p2 g : ℝ) := by exact_mod_cast htf2
    have := Real.log_nonneg hx
    linarith
  have h3 : (0:ℝ) ≤ Real.log ((ps.length : ℝ) / (dfCount ps g : ℝ)) := by
    rcases Nat.eq_zero_or_pos (dfCount ps g) with hdf | hdf
    · rw [hdf]
      push_cast
      rw [div_zero, Real.log_zero]
    · have hle : dfCount ps g ≤ ps.length := List.length_filter_le _ _
      apply Real.log_nonneg
      rw [le_div_iff (by exact_mod_cast hdf), one_mul]
      exact_mod_cast hle
  exact mul_nonneg (mul_nonneg h1 h2) h3

theorem floatToInt_nonpos {x : ℝ} (hx : x ≤ 0) : floatToInt x ≤ 0 := by
  unfold floatToInt
  split
  · have h0 : (0:ℤ) ≤ ⌊-x⌋ := Int.le_floor.2 (by push_cast; linarith)
    omega
  · rename_i h
    push_neg at h
    have hx0 : x = 0 := le_antisymm hx h
    rw [hx0]
    simp

/-- C9 (amended): every TSP cost entry (rounded Euclidean distance) is
non-negative, while every topic-sort cost entry is non-positive — the code
deliberately makes similarity costs negative ("Costs" are negative; we want
similar passages to be close, topic_sort.py line 61). -/
theorem claim_C9 :
    (∀ {m : Nat} (points : Fin m → ℝ × ℝ) (i j : Fin m), 0 ≤ tspCost points i j) ∧
    (∀ (ps : List Passage) (p1 p2 : Passage), topicCost ps p1 p2 ≤ 0) := by
  constructor
  · intro m points i j
    exact pythonRound_nonneg (Real.sqrt_nonneg _)
  · intro ps p1 p2
    apply floatToInt_nonpos
    have hs := similarity_nonneg ps p1 p2
    rw [div_eq_mul_inv]
    have h1 : (-1000) * similarity ps p1 p2 ≤ 0 := by nlinarith
    have h2 : (0:ℝ) ≤ ((min p1.len p2.len : ℕ) : ℝ)⁻¹ := by positivity
    exact mul_nonpos_iff.2 (Or.inr ⟨h1, h2⟩)

/-- A passage of length 5 holding the single token 0. -/
def csP : Passage := ⟨5, [0]⟩

/-- A passage of length 5 holding the single token 1. -/
def csQ : Passage := ⟨5, [1]⟩

/-- The three-passage counterexample input: two passages share token 0, a
third holds a different token. -/
def csPassages : List Passage := [csP, csP, csQ]

/-- C9 (counterexample): on the input above, the cost entry of the two
similar passages is strictly negative. -/
theorem claim_C9_counterexample : topicCost csPassages csP csP < 0 := by
  have hfilter : ((allNgrams csP.lemmas).dedup.filter fun g =>
      decide (0 < tfCount csP g)) = [[0]] := by decide
  have hsim : similarity csPassages csP csP = Real.log (3 / 2) := by
    unfold similarity
    rw [hfilter]
    have htf : tfCount csP [0] = 1 := by decide
    have hdf : dfCount csPassages [0] = 2 := by decide
    have hlen : csPassages.length = 3 := by decide
    simp [htf, hdf, hlen, Real.log_one]
  have hlog : (1:ℝ)/3 ≤ Real.log (3/2) := by
    have h := Real.log_le_sub_one_of_pos (show (0:ℝ) < 2/3 by norm_num)
    rw [show (3/2 : ℝ) = (2/3 : ℝ)⁻¹ by norm_num, Real.log_inv]
    linarith
  unfold topicCost
  rw [hsim]
  have harg : (-1000) * Real.log (3/2) / ((min csP.len csP.len : ℕ) : ℝ) =
      -(200 * Real.log (3/2)) := by
    have hm : ((min csP.len csP.len : ℕ) : ℝ) = 5 := by norm_num [csP]
    rw [hm]
    ring
  rw [harg]
  unfold floatToInt
  rw [if_pos (by nlinarith)]
  have hfloor : (1:ℤ) ≤ ⌊-(-(200 * Real.log (3/2)))⌋ := by
    rw [neg_neg]
    exact Int.le_floor.2 (by push_cast; nlinarith)
  omega

end TopicSort
